import Mathlib

/-!
# Verification of the tnetstring codec (`_tnetstring.c`)

The repository contains the Python-binding layer `src/tnetstring/_tnetstring.c`:
the entry points `loads`, `pop` and `dumps`, and the hook functions the generic
engine calls (`tns_parse_integer`, `tns_parse_float`, `tns_get_type`,
`tns_add_to_dict`, the per-type renderers, ...).  The generic engine itself,
`tns_core.c`, is `#include`d by that file but is not part of the sources, so it
is modelled here from the specification (sections 4.1-4.3): a recursive-descent
parser over a byte list and a renderer that writes the output backwards and
reverses it once at the end.

Conventions of the embedding:

* Bytes are `UInt8`, byte strings are `List UInt8`.
* Python objects reachable by this codec are the inductive `Value`.
* C `strtoll` / `strtod` (libc) and `PyObject_Str` / `PyObject_Repr` (CPython)
  are modelled by executable functions following their documented behaviour;
  see the comments at each definition for the deviations.
* Fallible operations return `Except ParseErr _` / `Option _`; the spec's
  error subkinds are the constructors of `ParseErr`.
-/

namespace TNet

/-- ASCII decimal digit test, `'0' = 48` to `'9' = 57`. -/
def isDigit (c : UInt8) : Bool := 48 ≤ c && c ≤ 57

/-- C locale `isspace`: space, tab, newline, vertical tab, form feed, carriage return. -/
def isSpace (c : UInt8) : Bool :=
  c == 32 || c == 9 || c == 10 || c == 11 || c == 12 || c == 13

/-- Value of a string of ASCII digit bytes, most significant first. -/
def digitsToNat (ds : List UInt8) : Nat :=
  ds.foldl (fun a c => 10 * a + (c.toNat - 48)) 0

/-- Accumulator loop producing the decimal digits of `n`, most significant
first.  The first argument is a structural-recursion bound so the definition
computes inside the kernel; any bound above `n` gives the same result. -/
def natDigitsF : Nat → Nat → List UInt8 → List UInt8
  | 0, _, acc => acc
  | fuel + 1, n, acc =>
    if n < 10 then UInt8.ofNat (48 + n) :: acc
    else natDigitsF fuel (n / 10) (UInt8.ofNat (48 + n % 10) :: acc)

/-- Canonical decimal digits of `n` (so `natDigits 0 = "0"`), as ASCII bytes. -/
def natDigits (n : Nat) : List UInt8 := natDigitsF (n + 1) n []

/-- Canonical decimal text of an integer, optional leading `-`; this is what
`PyObject_Str` produces for a Python `int`/`long` (modulo the `L` suffix that
only `repr`, not `str`, appends). -/
def intRepr (n : Int) : List UInt8 :=
  if n < 0 then 45 :: natDigits n.natAbs else natDigits n.natAbs

/-- ASCII bytes of a host string, for stating concrete examples. -/
def toBytes (s : String) : List UInt8 := s.data.map (fun c => UInt8.ofNat c.toNat)

/-- Optional leading sign: returns (sign, rest, bytes consumed). -/
def readSign (s : List UInt8) : Int × List UInt8 × Nat :=
  match s with
  | c :: r => if c = 43 then (1, r, 1) else if c = 45 then (-1, r, 1) else (1, s, 0)
  | [] => (1, s, 0)

/-- Saturate an integer into the signed 64-bit range, as C `strtoll` does on
overflow (it returns `LLONG_MIN`/`LLONG_MAX`; the code never checks `errno`). -/
def clampI64 (x : Int) : Int :=
  if x < -(2 ^ 63) then -(2 ^ 63) else if x > 2 ^ 63 - 1 then 2 ^ 63 - 1 else x

/-- Modelled from the spec: libc `strtoll(s, &end, 10)` (external to the
repository).  Skips C whitespace, reads an optional sign and then decimal
digits; returns the (saturated) value and the number of bytes consumed, 0 with
value 0 when no digit is found (then `*end = s`).  Faithful for the calls made
by `tns_parse_integer`: there the byte after the `len`-byte payload is always
the tag `'#'`, which cannot extend a number, so consumption never runs past the
payload. -/
def strtoll (s : List UInt8) : Int × Nat :=
  let ws := s.takeWhile isSpace
  let s1 := s.dropWhile isSpace
  let (sgn, s2, sgnLen) := readSign s1
  let ds := s2.takeWhile isDigit
  if ds.isEmpty then (0, 0)
  else (clampI64 (sgn * (digitsToNat ds : Int)), ws.length + sgnLen + ds.length)

/-- Loop of `normFloat`, with a structural-recursion bound (any bound above
the number of trailing zeros gives the same result). -/
def normFloatF : Nat → Int → Int → Int × Int
  | 0, m, e => (m, e)
  | fuel + 1, m, e =>
    if m = 0 then (0, 0)
    else if m % 10 = 0 then normFloatF fuel (m / 10) (e + 1)
    else (m, e)

/-- Strip trailing decimal zeros from a mantissa into the exponent, so equal
decimal values get equal representations (`m` has at most `natAbs m` trailing
zeros, so the bound is sufficient). -/
def normFloat (m e : Int) : Int × Int := normFloatF (m.natAbs + 1) m e

/-- Modelled from the spec: the host float type (CPython `PyFloat`, external to
the repository).  Section 3 requires only that float rendering "use a decimal
representation from which parsing reproduces the same value (round-trip
safe)", so floats are modelled exactly as decimal rationals `m * 10^e` in the
normal form produced by `normFloat`; IEEE rounding, infinities, NaN and hex
float literals are outside the model. -/
abbrev FloatRep := Int × Int

/-- Fraction part of a C float literal: consumed only when a `.` follows,
together with the bytes it accounts for. -/
def strtodFrac (s3 : List UInt8) : List UInt8 × List UInt8 × Nat :=
  match s3 with
  | c :: r =>
    if c = 46 then (r.takeWhile isDigit, r.dropWhile isDigit, 1 + (r.takeWhile isDigit).length)
    else ([], s3, 0)
  | [] => ([], s3, 0)

/-- Exponent part of a C float literal: `e`/`E`, optional sign and digits,
consumed only when at least one digit follows. -/
def strtodExp (s4 : List UInt8) : Int × Nat :=
  match s4 with
  | c :: r =>
    if c = 101 ∨ c = 69 then
      let t := readSign r
      let eds := t.2.1.takeWhile isDigit
      if eds.isEmpty then (0, 0) else (t.1 * (digitsToNat eds : Int), 1 + t.2.2 + eds.length)
    else (0, 0)
  | [] => (0, 0)

/-- Modelled from the spec: libc `strtod(s, &end)` on the decimal subset
(external to the repository).  Skips C whitespace, reads an optional sign, a
nonempty digit string optionally containing one `.`, and an optional
`e`/`E`-exponent (only if at least one exponent digit follows, else that part
is not consumed).  Returns the exact decimal value, normalised, and the bytes
consumed; `((0,0), 0)` when no conversion is performed.  Hex literals,
`inf` and `nan` are outside the model (see `FloatRep`). -/
def strtod (s : List UInt8) : FloatRep × Nat :=
  let ws := s.takeWhile isSpace
  let s1 := s.dropWhile isSpace
  let sg := readSign s1
  let ip := sg.2.1.takeWhile isDigit
  let s3 := sg.2.1.dropWhile isDigit
  let fr := strtodFrac s3
  if ip.isEmpty && fr.1.isEmpty then ((0, 0), 0)
  else
    let mant : Int := sg.1 * (digitsToNat (ip ++ fr.1) : Int)
    let ex := strtodExp fr.2.1
    (normFloat mant (ex.1 - (fr.1.length : Int)),
     ws.length + sg.2.2 + ip.length + fr.2.2 + ex.2)

/-- The canonical text the model host produces for a float (`PyObject_Repr` in
the C code, external to the repository): mantissa, `e`, exponent — e.g.
`15e-1` for 1.5.  It satisfies the section 3 requirement: `strtod` consumes it
entirely and returns the same float, and `strtoll` never consumes it entirely
(the `e` is always present), exactly the properties the codec relies on. -/
def floatRepr (m e : Int) : List UInt8 := intRepr m ++ 101 :: intRepr e

/-- Payload of a wire `true` boolean. -/
def strTrue : List UInt8 := [116, 114, 117, 101]

/-- Payload of a wire `false` boolean. -/
def strFalse : List UInt8 := [102, 97, 108, 115, 101]

/-- The Python values reachable by this codec (section 3's `Value`):
`None`, `bool`, `int`/`long` (one constructor; the codec treats them alike),
`float`, `str` (raw bytes in Python 2), `list`, `dict` (as the list of its
items; key equality in the model is structural, which matches Python equality
on values produced by the parser except for cross-type numeric equalities like
`True == 1`, which no claim exercises). -/
inductive Value where
  | VNone : Value
  | VBool : Bool → Value
  | VInt : Int → Value
  | VFloat : Int → Int → Value
  | VStr : List UInt8 → Value
  | VList : List Value → Value
  | VDict : List (Value × Value) → Value
deriving Repr

open Value

mutual

/-- Structural equality on `Value` (the automatic derivation does not handle
the nested inductive, so it is written out). -/
def beqV : Value → Value → Bool
  | VNone, VNone => true
  | VBool a, VBool b => a == b
  | VInt a, VInt b => a == b
  | VFloat a b, VFloat c d => a == c && b == d
  | VStr a, VStr b => a == b
  | VList xs, VList ys => beqL xs ys
  | VDict ps, VDict qs => beqP ps qs
  | _, _ => false

/-- Structural equality on lists of values. -/
def beqL : List Value → List Value → Bool
  | [], [] => true
  | x :: xs, y :: ys => beqV x y && beqL xs ys
  | _, _ => false

/-- Structural equality on lists of key/value pairs. -/
def beqP : List (Value × Value) → List (Value × Value) → Bool
  | [], [] => true
  | (k1, v1) :: ps, (k2, v2) :: qs => (beqV k1 k2 && beqV v1 v2) && beqP ps qs
  | _, _ => false

end

mutual

theorem beqV_rfl : (v : Value) → beqV v v = true
  | VNone => rfl
  | VBool b => by simp [beqV]
  | VInt n => by simp [beqV]
  | VFloat m e => by simp [beqV]
  | VStr s => by simp [beqV]
  | VList xs => beqL_rfl xs
  | VDict ps => beqP_rfl ps

theorem beqL_rfl : (xs : List Value) → beqL xs xs = true
  | [] => rfl
  | x :: xs => by
    have h1 := beqV_rfl x
    have h2 := beqL_rfl xs
    simp [beqL, h1, h2]

theorem beqP_rfl : (ps : List (Value × Value)) → beqP ps ps = true
  | [] => rfl
  | (k, v) :: ps => by
    have h1 := beqV_rfl k
    have h2 := beqV_rfl v
    have h3 := beqP_rfl ps
    simp [beqP, h1, h2, h3]

end

mutual

theorem beqV_eq : (v w : Value) → beqV v w = true → v = w
  | VNone, VNone, _ => rfl
  | VBool a, VBool b, h => congrArg VBool (eq_of_beq (h : (a == b) = true))
  | VInt a, VInt b, h => congrArg VInt (eq_of_beq (h : (a == b) = true))
  | VFloat a b, VFloat c d, h => by
    have h' : (a == c && b == d) = true := h
    obtain ⟨h1, h2⟩ := Bool.and_eq_true_iff.mp h'
    rw [eq_of_beq h1, eq_of_beq h2]
  | VStr a, VStr b, h => congrArg VStr (eq_of_beq (h : (a == b) = true))
  | VList xs, VList ys, h => congrArg VList (beqL_eq xs ys h)
  | VDict ps, VDict qs, h => congrArg VDict (beqP_eq ps qs h)
  | VNone, VBool _, h => Bool.noConfusion h
  | VNone, VInt _, h => Bool.noConfusion h
  | VNone, VFloat _ _, h => Bool.noConfusion h
  | VNone, VStr _, h => Bool.noConfusion h
  | VNone, VList _, h => Bool.noConfusion h
  | VNone, VDict _, h => Bool.noConfusion h
  | VBool _, VNone, h => Bool.noConfusion h
  | VBool _, VInt _, h => Bool.noConfusion h
  | VBool _, VFloat _ _, h => Bool.noConfusion h
  | VBool _, VStr _, h => Bool.noConfusion h
  | VBool _, VList _, h => Bool.noConfusion h
  | VBool _, VDict _, h => Bool.noConfusion h
  | VInt _, VNone, h => Bool.noConfusion h
  | VInt _, VBool _, h => Bool.noConfusion h
  | VInt _, VFloat _ _, h => Bool.noConfusion h
  | VInt _, VStr _, h => Bool.noConfusion h
  | VInt _, VList _, h => Bool.noConfusion h
  | VInt _, VDict _, h => Bool.noConfusion h
  | VFloat _ _, VNone, h => Bool.noConfusion h
  | VFloat _ _, VBool _, h => Bool.noConfusion h
  | VFloat _ _, VInt _, h => Bool.noConfusion h
  | VFloat _ _, VStr _, h => Bool.noConfusion h
  | VFloat _ _, VList _, h => Bool.noConfusion h
  | VFloat _ _, VDict _, h => Bool.noConfusion h
  | VStr _, VNone, h => Bool.noConfusion h
  | VStr _, VBool _, h => Bool.noConfusion h
  | VStr _, VInt _, h => Bool.noConfusion h
  | VStr _, VFloat _ _, h => Bool.noConfusion h
  | VStr _, VList _, h => Bool.noConfusion h
  | VStr _, VDict _, h => Bool.noConfusion h
  | VList _, VNone, h => Bool.noConfusion h
  | VList _, VBool _, h => Bool.noConfusion h
  | VList _, VInt _, h => Bool.noConfusion h
  | VList _, VFloat _ _, h => Bool.noConfusion h
  | VList _, VStr _, h => Bool.noConfusion h
  | VList _, VDict _, h => Bool.noConfusion h
  | VDict _, VNone, h => Bool.noConfusion h
  | VDict _, VBool _, h => Bool.noConfusion h
  | VDict _, VInt _, h => Bool.noConfusion h
  | VDict _, VFloat _ _, h => Bool.noConfusion h
  | VDict _, VStr _, h => Bool.noConfusion h
  | VDict _, VList _, h => Bool.noConfusion h

theorem beqL_eq : (xs ys : List Value) → beqL xs ys = true → xs = ys
  | [], [], _ => rfl
  | x :: xs, y :: ys, h => by
    have h' : (beqV x y && beqL xs ys) = true := h
    obtain ⟨h1, h2⟩ := Bool.and_eq_true_iff.mp h'
    rw [beqV_eq x y h1, beqL_eq xs ys h2]
  | [], _ :: _, h => Bool.noConfusion h
  | _ :: _, [], h => Bool.noConfusion h

theorem beqP_eq : (ps qs : List (Value × Value)) → beqP ps qs = true → ps = qs
  | [], [], _ => rfl
  | (k1, v1) :: ps, (k2, v2) :: qs, h => by
    have h' : ((beqV k1 k2 && beqV v1 v2) && beqP ps qs) = true := h
    obtain ⟨h12, h3⟩ := Bool.and_eq_true_iff.mp h'
    obtain ⟨h1, h2⟩ := Bool.and_eq_true_iff.mp h12
    rw [beqV_eq k1 k2 h1, beqV_eq v1 v2 h2, beqP_eq ps qs h3]
  | [], _ :: _, h => Bool.noConfusion h
  | _ :: _, [], h => Bool.noConfusion h

end

instance : DecidableEq Value := fun v w =>
  if h : beqV v w = true then isTrue (beqV_eq v w h)
  else isFalse (fun he => h (he ▸ beqV_rfl v))

/-- `PyInt_Check` from the C code's point of view: Python `bool` is a subclass
of `int`, so `Py_True`/`Py_False` satisfy it too. -/
def pyIntCheck : Value → Bool
  | VBool _ => true
  | VInt _ => true
  | _ => false

/-- `PyLong_Check`. -/
def pyLongCheck : Value → Bool
  | VInt _ => true
  | _ => false

/-- `PyFloat_Check`. -/
def pyFloatCheck : Value → Bool
  | VFloat _ _ => true
  | _ => false

/-- `PyString_Check`. -/
def pyStringCheck : Value → Bool
  | VStr _ => true
  | _ => false

/-- `PyList_Check`. -/
def pyListCheck : Value → Bool
  | VList _ => true
  | _ => false

/-- `PyDict_Check`. -/
def pyDictCheck : Value → Bool
  | VDict _ => true
  | _ => false

/-- `tns_get_type` (from the source): classify a host value as a wire tag
byte, checking `Py_True`/`Py_False` identity first, then `None`, then the
numeric, string and container type checks; `0` means unclassifiable. -/
def tns_get_type (v : Value) : UInt8 :=
  if v = VBool true ∨ v = VBool false then 33
  else if v = VNone then 126
  else if pyIntCheck v || pyLongCheck v then 35
  else if pyFloatCheck v then 35
  else if pyStringCheck v then 44
  else if pyListCheck v then 93
  else if pyDictCheck v then 125
  else 0

/-- `tns_parse_integer` (from the source): run `strtoll` on the payload and
accept only if every payload byte was consumed.  When the payload is empty the
no-conversion result (`end = start`) passes the check and yields integer 0. -/
def tns_parse_integer (data : List UInt8) : Option Value :=
  let r := strtoll data
  if r.2 = data.length then some (VInt r.1) else none

/-- `tns_parse_float` (from the source): run `strtod` on the payload and
accept only if every payload byte was consumed. -/
def tns_parse_float (data : List UInt8) : Option Value :=
  let r := strtod data
  if r.2 = data.length then some (VFloat r.1.1 r.1.2) else none

/-- `tns_add_to_dict` (from the source): `PyDict_SetItem`, which overwrites the
value of an existing equal key and otherwise appends a new entry. -/
def tns_add_to_dict (d : List (Value × Value)) (k v : Value) : List (Value × Value) :=
  match d with
  | [] => [(k, v)]
  | (k0, v0) :: rest =>
    if k0 = k then (k0, v) :: rest else (k0, v0) :: tns_add_to_dict rest k v

/-- The parse-error subkinds of section 7 (`ContainerOverrun` shows up, in the
materialised-payload model, as a `truncated` failure of the sub-parse on the
container's payload span, which aborts the container all the same). -/
inductive ParseErr where
  | malformedLength : ParseErr
  | missingSeparator : ParseErr
  | truncated : ParseErr
  | unknownTag : ParseErr
  | invalidNumber : ParseErr
  | invalidBool : ParseErr
  | invalidNull : ParseErr
  | danglingKey : ParseErr
deriving DecidableEq, Repr

instance {e a : Type} [DecidableEq e] [DecidableEq a] : DecidableEq (Except e a) := fun x y =>
  match x, y with
  | .error e1, .error e2 =>
    if h : e1 = e2 then isTrue (by rw [h]) else isFalse (by intro hh; injection hh; contradiction)
  | .ok a1, .ok a2 =>
    if h : a1 = a2 then isTrue (by rw [h]) else isFalse (by intro hh; injection hh; contradiction)
  | .error _, .ok _ => isFalse (by intro hh; exact Except.noConfusion hh)
  | .ok _, .error _ => isFalse (by intro hh; exact Except.noConfusion hh)

mutual

/-- Modelled from the spec: `tns_parse` of `tns_core.c` (missing from `src/`),
following section 4.1 step by step.  `fuel` is a structural-recursion bound
only — every call made with `fuel > data.length` is unaffected by it (proved
below), and `tns_parse` supplies such a bound.
Step 1 reads one or more ASCII digits as the length (no sign, no whitespace,
`malformedLength` when the first byte is not a digit; the length is a `Nat`, so
the C `size_t`-overflow failure cannot arise); step 2 requires `:`
(`missingSeparator`); the payload and the tag byte must fit in the remaining
bytes (`truncated`); the tag is dispatched by `parseTagged`; the unconsumed
suffix is returned with the value. -/
def tnsParseF : Nat → List UInt8 → Except ParseErr (Value × List UInt8)
  | 0, _ => .error .truncated
  | fuel + 1, data =>
    let ds := data.takeWhile isDigit
    if ds.isEmpty then .error .malformedLength
    else
      match data.dropWhile isDigit with
      | [] => .error .missingSeparator
      | c :: rest1 =>
        if c = 58 then
          let n := digitsToNat ds
          if rest1.length < n + 1 then .error .truncated
          else
            match rest1.drop n with
            | [] => .error .truncated
            | t :: rest2 =>
              match parseTagged fuel t (rest1.take n) with
              | .error e => .error e
              | .ok v => .ok (v, rest2)
        else .error .missingSeparator

/-- Modelled from the spec: the tag dispatch of section 4.1 step 5, using the
hook functions from the source: `,` raw bytes; `#` integer first, then float,
both requiring full payload consumption, else `invalidNumber`; `!` exactly
`true`/`false`; `~` empty payload only; `]`/`}` recursive sub-parses of the
payload; any other byte is `unknownTag`.  The fuel-0 case is unreachable under
the caller's bound. -/
def parseTagged : Nat → UInt8 → List UInt8 → Except ParseErr Value
  | 0, _, _ => .error .truncated
  | fuel + 1, t, payload =>
    if t = 44 then .ok (VStr payload)
    else if t = 35 then
      match tns_parse_integer payload with
      | some v => .ok v
      | none =>
        match tns_parse_float payload with
        | some v => .ok v
        | none => .error .invalidNumber
    else if t = 33 then
      if payload = strTrue then .ok (VBool true)
      else if payload = strFalse then .ok (VBool false)
      else .error .invalidBool
    else if t = 126 then
      if payload.isEmpty then .ok VNone else .error .invalidNull
    else if t = 93 then
      match parseListF fuel payload [] with
      | .error e => .error e
      | .ok xs => .ok (VList xs)
    else if t = 125 then
      match parseDictF fuel payload [] with
      | .error e => .error e
      | .ok ps => .ok (VDict ps)
    else .error .unknownTag

/-- Modelled from the spec: the `]` loop of section 4.1 step 5 — parse
successive sub-values of the payload until it is exhausted, appending each to
the list under construction (`tns_add_to_list` / `PyList_Append`). -/
def parseListF : Nat → List UInt8 → List Value → Except ParseErr (List Value)
  | _, [], lst => .ok lst
  | 0, _ :: _, _ => .error .truncated
  | fuel + 1, d :: ds, lst =>
    match tnsParseF fuel (d :: ds) with
    | .error e => .error e
    | .ok (v, rest) => parseListF fuel rest (lst ++ [v])

/-- Modelled from the spec: the `}` loop of section 4.1 step 5 — parse a
strict alternating sequence of key and value sub-values until the payload is
exhausted (`danglingKey` when a key has no value), inserting each pair with
`tns_add_to_dict` (`PyDict_SetItem`). -/
def parseDictF : Nat → List UInt8 → List (Value × Value) → Except ParseErr (List (Value × Value))
  | _, [], d => .ok d
  | 0, _ :: _, _ => .error .truncated
  | fuel + 1, b :: bs, d =>
    match tnsParseF fuel (b :: bs) with
    | .error e => .error e
    | .ok (k, rest1) =>
      if rest1.isEmpty then .error .danglingKey
      else
        match tnsParseF fuel rest1 with
        | .error e => .error e
        | .ok (v, rest2) => parseDictF fuel rest2 (tns_add_to_dict d k v)

end

/-- Modelled from the spec: the single-value entry point — `tns_parse` run on
the whole buffer with enough fuel to be unaffected by it. -/
def tns_parse (s : List UInt8) : Except ParseErr (Value × List UInt8) :=
  tnsParseF (s.length + 1) s

/-- `_tnetstring_loads` (from the source): parse one value and return it,
ignoring any unconsumed bytes (`tns_parse` is called with `remain = NULL`). -/
def loads (s : List UInt8) : Except ParseErr Value :=
  match tns_parse s with
  | .error e => .error e
  | .ok (v, _) => .ok v

/-- `_tnetstring_pop` (from the source): parse one value and return it
together with the unconsumed suffix of the input. -/
def pop (s : List UInt8) : Except ParseErr (Value × List UInt8) :=
  tns_parse s

/-- Modelled from the spec: the tail of a reversed fragment — after the
payload is in the buffer, append the `:` separator and the decimal digits of
the payload's byte count in reversed digit order.  `buf0` is the buffer as it
stood right after the tag byte, `buf1` after the payload. -/
def closeFrame (buf0 buf1 : List UInt8) : List UInt8 :=
  buf1 ++ 58 :: (natDigits (buf1.length - buf0.length)).reverse

mutual

/-- Modelled from the spec: `tns_render_value` of `tns_core.c` (missing from
`src/`), following section 4.3: append the tag byte, then the payload in
reversed byte order (scalars through `tns_outbuf_rputs`, containers by
recursion), then `:` and the reversed decimal digits of the payload's byte
count, measured as the growth of the buffer.  The final whole-buffer reversal
is done by `dumps`.  On the model's closed `Value` type `tns_get_type` never
returns 0, so the renderer is total. -/
def renderValue : Value → List UInt8 → List UInt8
  | VNone, buf => closeFrame (buf ++ [tns_get_type VNone]) (buf ++ [tns_get_type VNone])
  | VBool b, buf =>
    let buf0 := buf ++ [tns_get_type (VBool b)]
    closeFrame buf0 (buf0 ++ (if b then strTrue else strFalse).reverse)
  | VInt n, buf =>
    let buf0 := buf ++ [tns_get_type (VInt n)]
    closeFrame buf0 (buf0 ++ (intRepr n).reverse)
  | VFloat m e, buf =>
    let buf0 := buf ++ [tns_get_type (VFloat m e)]
    closeFrame buf0 (buf0 ++ (floatRepr m e).reverse)
  | VStr s, buf =>
    let buf0 := buf ++ [tns_get_type (VStr s)]
    closeFrame buf0 (buf0 ++ s.reverse)
  | VList xs, buf =>
    let buf0 := buf ++ [tns_get_type (VList xs)]
    closeFrame buf0 (renderItemsRev xs buf0)
  | VDict ps, buf =>
    let buf0 := buf ++ [tns_get_type (VDict ps)]
    closeFrame buf0 (renderPairs ps buf0)

/-- `tns_render_list` (from the source): the C loop walks the list from the
last index down, so the head of the list is rendered last. -/
def renderItemsRev : List Value → List UInt8 → List UInt8
  | [], buf => buf
  | y :: ys, buf => renderValue y (renderItemsRev ys buf)

/-- `tns_render_dict` (from the source): for each pair in iteration order,
render the value's fragment and then the key's fragment. -/
def renderPairs : List (Value × Value) → List UInt8 → List UInt8
  | [], buf => buf
  | (k, v) :: ps, buf => renderPairs ps (renderValue k (renderValue v buf))

end

/-- `_tnetstring_dumps` (from the source): render backwards from an empty
buffer, then copy the buffer out in reverse order. -/
def dumps (v : Value) : List UInt8 := (renderValue v []).reverse

/-! ## Forward wire form

`mkFrame`/`frameV` describe, in ordinary forward byte order, the wire bytes the
backward renderer produces; they are proof scaffolding, not part of the model
of the code. -/

/-- Forward wire frame with payload `p` and tag `t`: `length ":" payload tag`. -/
def mkFrame (p : List UInt8) (t : UInt8) : List UInt8 :=
  natDigits p.length ++ 58 :: (p ++ [t])

mutual

/-- Forward payload bytes of a value. -/
def payloadV : Value → List UInt8
  | VNone => []
  | VBool b => if b then strTrue else strFalse
  | VInt n => intRepr n
  | VFloat m e => floatRepr m e
  | VStr s => s
  | VList xs => frameL xs
  | VDict ps => frameD ps

/-- Forward payload of a list: the children's frames in list order. -/
def frameL : List Value → List UInt8
  | [] => []
  | x :: xs => mkFrame (payloadV x) (tns_get_type x) ++ frameL xs

/-- Forward payload of a dict as the backward renderer emits it: iteration
order is reversed on the wire, each pair as key-frame then value-frame. -/
def frameD : List (Value × Value) → List UInt8
  | [] => []
  | (k, v) :: ps =>
    frameD ps ++ (mkFrame (payloadV k) (tns_get_type k) ++ mkFrame (payloadV v) (tns_get_type v))

end

/-- Forward wire frame of a value. -/
def frameV (v : Value) : List UInt8 := mkFrame (payloadV v) (tns_get_type v)

theorem frameL_cons (x : Value) (xs : List Value) :
    frameL (x :: xs) = frameV x ++ frameL xs := rfl

theorem frameD_cons (k v : Value) (ps : List (Value × Value)) :
    frameD ((k, v) :: ps) = frameD ps ++ (frameV k ++ frameV v) := rfl

/-! ## Well-formedness

`wfV` is the embedding of section 3's `Value` invariants: integers fit in
signed 64 bits and floats are in the normal form that identifies a host
float.  `noDictV` marks the dict-free values of the round-trip property. -/

mutual

/-- Section 3 invariants: `Integer` is signed 64-bit, floats are normalised. -/
def wfV : Value → Bool
  | VNone => true
  | VBool _ => true
  | VInt n => decide (-(2 ^ 63) ≤ n) && decide (n < 2 ^ 63)
  | VFloat m e => if m = 0 then decide (e = 0) else decide (m % 10 ≠ 0)
  | VStr _ => true
  | VList xs => wfL xs
  | VDict ps => wfP ps

/-- All list elements are well-formed. -/
def wfL : List Value → Bool
  | [] => true
  | x :: xs => wfV x && wfL xs

/-- All dict keys and values are well-formed. -/
def wfP : List (Value × Value) → Bool
  | [] => true
  | (k, v) :: ps => (wfV k && wfV v) && wfP ps

end

mutual

/-- The value contains no `Dict` anywhere. -/
def noDictV : Value → Bool
  | VNone => true
  | VBool _ => true
  | VInt _ => true
  | VFloat _ _ => true
  | VStr _ => true
  | VList xs => noDictL xs
  | VDict _ => false

/-- No list element contains a `Dict`. -/
def noDictL : List Value → Bool
  | [] => true
  | x :: xs => noDictV x && noDictL xs

end

/-! ## Byte-level facts -/

theorem isSpace_iff (c : UInt8) : isSpace c = true ↔
    c = 32 ∨ c = 9 ∨ c = 10 ∨ c = 11 ∨ c = 12 ∨ c = 13 := by
  simp [isSpace, or_assoc]

theorem isDigit_ne (c d : UInt8) (h : isDigit c = true) (hd : isDigit d = false) : c ≠ d := by
  intro he
  rw [he, hd] at h
  exact Bool.noConfusion h

theorem isDigit_not_isSpace (c : UInt8) (h : isDigit c = true) : isSpace c = false := by
  rw [Bool.eq_false_iff]
  intro hs
  rcases (isSpace_iff c).mp hs with h1 | h1 | h1 | h1 | h1 | h1 <;>
    (subst h1; exact absurd h (by decide))

/-! ## Decimal digit lemmas -/

theorem natDigitsF_append (fuel : Nat) : ∀ n acc, natDigitsF fuel n acc = natDigitsF fuel n [] ++ acc := by
  induction fuel with
  | zero => intro n acc; rfl
  | succ fuel ih =>
    intro n acc
    by_cases h : n < 10
    · simp [natDigitsF, h]
    · simp only [natDigitsF, if_neg h]
      rw [ih (n / 10) (UInt8.ofNat (48 + n % 10) :: acc),
        ih (n / 10) [UInt8.ofNat (48 + n % 10)], List.append_assoc]
      rfl

theorem natDigitsF_irrel (n : Nat) : ∀ f1 f2, n < f1 → n < f2 →
    natDigitsF f1 n [] = natDigitsF f2 n [] := by
  induction n using Nat.strong_induction_on with
  | _ n ih =>
    intro f1 f2 h1 h2
    match f1, f2 with
    | a + 1, b + 1 =>
      by_cases h : n < 10
      · simp [natDigitsF, h]
      · simp only [natDigitsF, if_neg h]
        rw [natDigitsF_append a, natDigitsF_append b]
        have hd : n / 10 < n := Nat.div_lt_self (by omega) (by omega)
        rw [ih (n / 10) hd a b (by omega) (by omega)]

theorem natDigits_lt (n : Nat) (h : n < 10) : natDigits n = [UInt8.ofNat (48 + n)] := by
  simp [natDigits, natDigitsF, h]

theorem natDigits_step (n : Nat) (h : ¬n < 10) :
    natDigits n = natDigits (n / 10) ++ [UInt8.ofNat (48 + n % 10)] := by
  have hd : n / 10 < n := Nat.div_lt_self (by omega) (by omega)
  rw [natDigits]
  simp only [natDigitsF, if_neg h]
  rw [natDigitsF_append n, natDigitsF_irrel (n / 10) n (n / 10 + 1) (by omega) (by omega)]
  rfl

theorem natDigits_all_digits (n : Nat) : ∀ c ∈ natDigits n, isDigit c = true := by
  induction n using Nat.strong_induction_on with
  | _ n ih =>
    by_cases h : n < 10
    · rw [natDigits_lt n h]
      intro c hc
      rw [List.mem_singleton] at hc
      subst hc
      interval_cases n <;> decide
    · rw [natDigits_step n h]
      intro c hc
      rcases List.mem_append.mp hc with h1 | h1
      · exact ih (n / 10) (Nat.div_lt_self (by omega) (by omega)) c h1
      · rw [List.mem_singleton] at h1
        subst h1
        have h2 : n % 10 < 10 := Nat.mod_lt _ (by omega)
        set k := n % 10 with hk
        interval_cases k <;> decide

theorem natDigits_ne_nil (n : Nat) : natDigits n ≠ [] := by
  by_cases h : n < 10
  · rw [natDigits_lt n h]
    simp
  · rw [natDigits_step n h]
    simp

theorem digitsToNat_append_digit (a : List UInt8) (d : UInt8) :
    digitsToNat (a ++ [d]) = 10 * digitsToNat a + (d.toNat - 48) := by
  rw [digitsToNat, digitsToNat, List.foldl_append]
  rfl

theorem digitsToNat_natDigits (n : Nat) : digitsToNat (natDigits n) = n := by
  induction n using Nat.strong_induction_on with
  | _ n ih =>
    by_cases h : n < 10
    · interval_cases n <;> decide
    · rw [natDigits_step n h, digitsToNat_append_digit,
        ih (n / 10) (Nat.div_lt_self (by omega) (by omega))]
      have h2 : n % 10 < 10 := Nat.mod_lt _ (by omega)
      have h3 : (UInt8.ofNat (48 + n % 10)).toNat = 48 + n % 10 := by
        have : (UInt8.ofNat (48 + n % 10)).toNat = (48 + n % 10) % 256 := rfl
        omega
      omega

/-! ## takeWhile / dropWhile over a known prefix -/

theorem takeWhile_all_stop {p : UInt8 → Bool} (l : List UInt8) (c : UInt8) (r : List UInt8)
    (hl : ∀ x ∈ l, p x = true) (hc : p c = false) :
    (l ++ c :: r).takeWhile p = l := by
  induction l with
  | nil => simp [List.takeWhile_cons, hc]
  | cons a l ih =>
    have ha : p a = true := hl a (by simp)
    simp only [List.cons_append, List.takeWhile_cons, ha, if_true]
    rw [ih (fun x hx => hl x (by simp [hx]))]

theorem dropWhile_all_stop {p : UInt8 → Bool} (l : List UInt8) (c : UInt8) (r : List UInt8)
    (hl : ∀ x ∈ l, p x = true) (hc : p c = false) :
    (l ++ c :: r).dropWhile p = c :: r := by
  induction l with
  | nil => simp [List.dropWhile_cons, hc]
  | cons a l ih =>
    have ha : p a = true := hl a (by simp)
    simp only [List.cons_append, List.dropWhile_cons, ha, if_true]
    exact ih (fun x hx => hl x (by simp [hx]))

theorem takeWhile_all (l : List UInt8) {p : UInt8 → Bool} (hl : ∀ x ∈ l, p x = true) :
    l.takeWhile p = l := by
  induction l with
  | nil => rfl
  | cons a l ih =>
    have ha : p a = true := hl a (by simp)
    simp only [List.takeWhile_cons, ha, if_true]
    rw [ih (fun x hx => hl x (by simp [hx]))]

theorem dropWhile_all (l : List UInt8) {p : UInt8 → Bool} (hl : ∀ x ∈ l, p x = true) :
    l.dropWhile p = [] := by
  induction l with
  | nil => rfl
  | cons a l ih =>
    have ha : p a = true := hl a (by simp)
    simp only [List.dropWhile_cons, ha, if_true]
    exact ih (fun x hx => hl x (by simp [hx]))

/-! ## `strtoll` characterisation -/

theorem isEmpty_false_of_ne_nil {l : List UInt8} (h : l ≠ []) : l.isEmpty = false := by
  simp [List.isEmpty_iff, h]

theorem readSign_digit (d : UInt8) (r : List UInt8) (hd : isDigit d = true) :
    readSign (d :: r) = (1, d :: r, 0) := by
  rw [readSign, if_neg (isDigit_ne d 43 hd (by decide)), if_neg (isDigit_ne d 45 hd (by decide))]

/-- `strtoll` on optional C whitespace, an optional sign and a nonempty digit
string consumes everything and returns the signed value (saturated). -/
theorem strtoll_eq (ws sg ds : List UInt8)
    (hws : ∀ c ∈ ws, isSpace c = true)
    (hsg : sg = [] ∨ sg = [43] ∨ sg = [45])
    (hds : ∀ c ∈ ds, isDigit c = true) (hne : ds ≠ []) :
    strtoll (ws ++ (sg ++ ds)) =
      (clampI64 ((if sg = [45] then (-1 : Int) else 1) * (digitsToNat ds : Int)),
       ws.length + sg.length + ds.length) := by
  obtain ⟨d0, ds', rfl⟩ : ∃ d0 ds', ds = d0 :: ds' := by
    cases ds with
    | nil => exact absurd rfl hne
    | cons a l => exact ⟨a, l, rfl⟩
  have hd0 : isDigit d0 = true := hds d0 (by simp)
  rcases hsg with rfl | rfl | rfl
  · rw [strtoll]
    simp only [List.nil_append]
    rw [takeWhile_all_stop ws d0 ds' hws (isDigit_not_isSpace d0 hd0),
      dropWhile_all_stop ws d0 ds' hws (isDigit_not_isSpace d0 hd0),
      readSign_digit d0 ds' hd0]
    simp only []
    rw [takeWhile_all (d0 :: ds') hds, isEmpty_false_of_ne_nil hne]
    simp
  · rw [strtoll]
    simp only [List.singleton_append]
    have h43 : isSpace 43 = false := by decide
    rw [takeWhile_all_stop ws 43 (d0 :: ds') hws h43,
      dropWhile_all_stop ws 43 (d0 :: ds') hws h43]
    have hrs : readSign (43 :: (d0 :: ds')) = (1, d0 :: ds', 1) := by simp [readSign]
    rw [hrs]
    simp only []
    rw [takeWhile_all (d0 :: ds') hds, isEmpty_false_of_ne_nil hne]
    simp
  · rw [strtoll]
    simp only [List.singleton_append]
    have h45 : isSpace 45 = false := by decide
    rw [takeWhile_all_stop ws 45 (d0 :: ds') hws h45,
      dropWhile_all_stop ws 45 (d0 :: ds') hws h45]
    have hrs : readSign (45 :: (d0 :: ds')) = (-1, d0 :: ds', 1) := by simp [readSign]
    rw [hrs]
    simp only []
    rw [takeWhile_all (d0 :: ds') hds, isEmpty_false_of_ne_nil hne]
    simp

/-- `strtoll` on a bare nonempty digit string. -/
theorem strtoll_digits (ds : List UInt8) (hds : ∀ c ∈ ds, isDigit c = true) (hne : ds ≠ []) :
    strtoll ds = (clampI64 (digitsToNat ds : Int), ds.length) := by
  have h := strtoll_eq [] [] ds (by simp) (Or.inl rfl) hds hne
  simp at h
  simpa using h

/-- In-range integers are not saturated. -/
theorem clampI64_id (x : Int) (h1 : -(2 ^ 63) ≤ x) (h2 : x < 2 ^ 63) : clampI64 x = x := by
  rw [clampI64, if_neg (by omega), if_neg (by omega)]

theorem intRepr_decomp (x : Int) :
    intRepr x = (if x < 0 then [45] else []) ++ natDigits x.natAbs := by
  rw [intRepr]
  by_cases h : x < 0
  · rw [if_pos h, if_pos h]
    rfl
  · rw [if_neg h, if_neg h]
    rfl

theorem intRepr_ne_nil (x : Int) : intRepr x ≠ [] := by
  rw [intRepr_decomp]
  by_cases h : x < 0 <;> simp [h, natDigits_ne_nil]

/-- Unfolding of `tns_parse_integer` in terms of `strtoll`. -/
theorem tns_parse_integer_eq (p : List UInt8) :
    tns_parse_integer p =
      if (strtoll p).2 = p.length then some (VInt (strtoll p).1) else none := rfl

/-- Unfolding of `tns_parse_float` in terms of `strtod`. -/
theorem tns_parse_float_eq (p : List UInt8) :
    tns_parse_float p =
      if (strtod p).2 = p.length then some (VFloat (strtod p).1.1 (strtod p).1.2) else none := rfl

/-- `strtoll` consumes the canonical decimal text of any integer entirely and
returns it, saturated into the 64-bit range. -/
theorem strtoll_intRepr (n : Int) :
    strtoll (intRepr n) = (clampI64 n, (intRepr n).length) := by
  have hds := natDigits_all_digits n.natAbs
  have hne := natDigits_ne_nil n.natAbs
  rw [intRepr_decomp]
  by_cases h : n < 0
  · rw [if_pos h]
    have hst := strtoll_eq [] [45] (natDigits n.natAbs) (by simp) (by simp) hds hne
    rw [List.nil_append] at hst
    rw [hst, digitsToNat_natDigits]
    have hn : (if ([45] : List UInt8) = [45] then (-1 : Int) else 1) * (n.natAbs : Int) = n := by
      rw [if_pos rfl]; omega
    rw [hn]
    simp
    omega
  · rw [if_neg h]
    have hst := strtoll_eq [] [] (natDigits n.natAbs) (by simp) (Or.inl rfl) hds hne
    rw [List.nil_append, List.nil_append] at hst
    rw [List.nil_append, hst, digitsToNat_natDigits]
    have hn : (if ([] : List UInt8) = [45] then (-1 : Int) else 1) * (n.natAbs : Int) = n := by
      rw [if_neg (by simp)]; omega
    rw [hn]
    simp

/-- `tns_parse_integer` accepts the canonical decimal text of any integer in
the signed 64-bit range and returns exactly that integer. -/
theorem tns_parse_integer_intRepr (n : Int) (h1 : -(2 ^ 63) ≤ n) (h2 : n < 2 ^ 63) :
    tns_parse_integer (intRepr n) = some (VInt n) := by
  rw [tns_parse_integer_eq, strtoll_intRepr]
  simp [clampI64_id n h1 h2]

/-! ## Float payload characterisation -/

theorem takeWhile_cons_stop {p : UInt8 → Bool} (d0 : UInt8) (ds' : List UInt8) (c0 : UInt8)
    (r : List UInt8) (hds : ∀ x ∈ d0 :: ds', p x = true) (hc0 : p c0 = false) :
    (d0 :: (ds' ++ c0 :: r)).takeWhile p = d0 :: ds' ∧
    (d0 :: (ds' ++ c0 :: r)).dropWhile p = c0 :: r := by
  have h1 := takeWhile_all_stop (d0 :: ds') c0 r hds hc0
  have h2 := dropWhile_all_stop (d0 :: ds') c0 r hds hc0
  rw [List.cons_append] at h1 h2
  exact ⟨h1, h2⟩

/-- `strtoll` on sign-and-digits followed by a non-digit byte consumes only
the sign and digits. -/
theorem strtoll_eq_stop (ws sg ds : List UInt8) (c0 : UInt8) (r : List UInt8)
    (hws : ∀ c ∈ ws, isSpace c = true)
    (hsg : sg = [] ∨ sg = [43] ∨ sg = [45])
    (hds : ∀ c ∈ ds, isDigit c = true) (hne : ds ≠ []) (hc0 : isDigit c0 = false) :
    strtoll (ws ++ (sg ++ (ds ++ c0 :: r))) =
      (clampI64 ((if sg = [45] then (-1 : Int) else 1) * (digitsToNat ds : Int)),
       ws.length + sg.length + ds.length) := by
  obtain ⟨d0, ds', rfl⟩ : ∃ d0 ds', ds = d0 :: ds' := by
    cases ds with
    | nil => exact absurd rfl hne
    | cons a l => exact ⟨a, l, rfl⟩
  have hd0 : isDigit d0 = true := hds d0 (by simp)
  obtain ⟨htk, _⟩ := takeWhile_cons_stop d0 ds' c0 r hds hc0
  rcases hsg with rfl | rfl | rfl
  · rw [strtoll]
    simp only [List.nil_append, List.cons_append]
    rw [takeWhile_all_stop ws d0 (ds' ++ c0 :: r) hws (isDigit_not_isSpace d0 hd0),
      dropWhile_all_stop ws d0 (ds' ++ c0 :: r) hws (isDigit_not_isSpace d0 hd0),
      readSign_digit d0 (ds' ++ c0 :: r) hd0]
    simp only []
    rw [htk, isEmpty_false_of_ne_nil (by simp : (d0 :: ds') ≠ [])]
    simp
  · rw [strtoll]
    simp only [List.singleton_append, List.cons_append, List.nil_append]
    have h43 : isSpace 43 = false := by decide
    rw [takeWhile_all_stop ws 43 (d0 :: (ds' ++ c0 :: r)) hws h43,
      dropWhile_all_stop ws 43 (d0 :: (ds' ++ c0 :: r)) hws h43]
    have hrs : readSign (43 :: (d0 :: (ds' ++ c0 :: r))) = (1, d0 :: (ds' ++ c0 :: r), 1) := by
      simp [readSign]
    rw [hrs]
    simp only []
    rw [htk, isEmpty_false_of_ne_nil (by simp : (d0 :: ds') ≠ [])]
    simp
  · rw [strtoll]
    simp only [List.singleton_append, List.cons_append, List.nil_append]
    have h45 : isSpace 45 = false := by decide
    rw [takeWhile_all_stop ws 45 (d0 :: (ds' ++ c0 :: r)) hws h45,
      dropWhile_all_stop ws 45 (d0 :: (ds' ++ c0 :: r)) hws h45]
    have hrs : readSign (45 :: (d0 :: (ds' ++ c0 :: r))) = (-1, d0 :: (ds' ++ c0 :: r), 1) := by
      simp [readSign]
    rw [hrs]
    simp only []
    rw [htk, isEmpty_false_of_ne_nil (by simp : (d0 :: ds') ≠ [])]
    simp

/-- `strtoll` on the float text `<m>e<e>` stops at the `e`. -/
theorem strtoll_floatRepr (m e : Int) :
    strtoll (floatRepr m e) = (clampI64 m, (intRepr m).length) := by
  have hds := natDigits_all_digits m.natAbs
  have hne := natDigits_ne_nil m.natAbs
  have h101 : isDigit 101 = false := by decide
  rw [floatRepr, intRepr_decomp]
  by_cases h : m < 0
  · rw [if_pos h]
    have hst := strtoll_eq_stop [] [45] (natDigits m.natAbs) 101 (intRepr e)
      (by simp) (by simp) hds hne h101
    rw [List.nil_append] at hst
    rw [List.append_assoc, hst, digitsToNat_natDigits]
    have hn : (if ([45] : List UInt8) = [45] then (-1 : Int) else 1) * (m.natAbs : Int) = m := by
      rw [if_pos rfl]; omega
    rw [hn]
    simp
    omega
  · rw [if_neg h]
    have hst := strtoll_eq_stop [] [] (natDigits m.natAbs) 101 (intRepr e)
      (by simp) (Or.inl rfl) hds hne h101
    rw [List.nil_append, List.nil_append] at hst
    rw [List.nil_append, hst, digitsToNat_natDigits]
    have hn : (if ([] : List UInt8) = [45]  then (-1 : Int) else 1) * (m.natAbs : Int) = m := by
      rw [if_neg (by simp)]; omega
    rw [hn]
    simp

/-- The integer attempt on a float text never consumes the whole payload, so
`tns_parse_integer` rejects it. -/
theorem tns_parse_integer_floatRepr (m e : Int) :
    tns_parse_integer (floatRepr m e) = none := by
  rw [tns_parse_integer_eq, strtoll_floatRepr]
  have h1 : (floatRepr m e).length = (intRepr m).length + 1 + (intRepr e).length := by
    rw [floatRepr]
    simp
    omega
  have h2 : (intRepr e).length ≠ 0 := by
    intro hh
    exact intRepr_ne_nil e (List.length_eq_zero.mp hh)
  rw [if_neg (by simp only []; omega)]

theorem normFloat_canonical (m e : Int) (h : if m = 0 then e = 0 else m % 10 ≠ 0) :
    normFloat m e = (m, e) := by
  rw [normFloat]
  simp only [normFloatF]
  by_cases hm : m = 0
  · rw [if_pos hm] at h
    rw [if_pos hm, hm, h]
  · rw [if_neg hm] at h
    rw [if_neg hm, if_neg h]

theorem strtodFrac_cons_ne (c : UInt8) (r : List UInt8) (h : c ≠ 46) :
    strtodFrac (c :: r) = ([], c :: r, 0) := by
  simp [strtodFrac, h]

theorem strtodExp_floatExp (e : Int) :
    strtodExp (101 :: intRepr e) = (e, 1 + (intRepr e).length) := by
  have hds := natDigits_all_digits e.natAbs
  have hne := natDigits_ne_nil e.natAbs
  rw [strtodExp, if_pos (Or.inl rfl)]
  simp only []
  rw [intRepr_decomp]
  by_cases h : e < 0
  · rw [if_pos h]
    simp only [List.singleton_append]
    have hrs : readSign (45 :: natDigits e.natAbs) = (-1, natDigits e.natAbs, 1) := by
      simp [readSign]
    rw [hrs]
    simp only []
    rw [takeWhile_all (natDigits e.natAbs) hds, isEmpty_false_of_ne_nil hne,
      digitsToNat_natDigits]
    have hv : (-1 : Int) * (e.natAbs : Int) = e := by omega
    rw [hv]
    simp
    omega
  · rw [if_neg h]
    rw [List.nil_append]
    obtain ⟨d0, ds', hde⟩ : ∃ d0 ds', natDigits e.natAbs = d0 :: ds' := by
      cases hnd : natDigits e.natAbs with
      | nil => exact absurd hnd hne
      | cons a l => exact ⟨a, l, rfl⟩
    rw [hde] at hds
    rw [hde, readSign_digit d0 ds' (hds d0 (by simp))]
    simp only []
    rw [takeWhile_all (d0 :: ds') hds, isEmpty_false_of_ne_nil (by simp : (d0 :: ds') ≠ [])]
    rw [← hde, digitsToNat_natDigits]
    have hv : (1 : Int) * (e.natAbs : Int) = e := by omega
    rw [hv]
    simp [hde]

theorem strtod_floatRepr (m e : Int) (hcan : if m = 0 then e = 0 else m % 10 ≠ 0) :
    strtod (floatRepr m e) = ((m, e), (floatRepr m e).length) := by
  have hdsm := natDigits_all_digits m.natAbs
  have hnem := natDigits_ne_nil m.natAbs
  have h101 : isDigit 101 = false := by decide
  have hlen : (floatRepr m e).length =
      (if m < 0 then 1 else 0) + (natDigits m.natAbs).length + 1 + (intRepr e).length := by
    rw [floatRepr, intRepr_decomp]
    by_cases h : m < 0 <;> simp [h] <;> omega
  rw [strtod]
  simp only []
  rw [floatRepr, intRepr_decomp]
  by_cases h : m < 0
  · rw [if_pos h]
    simp only [List.singleton_append, List.cons_append, List.nil_append]
    have h45 : isSpace 45 = false := by decide
    have htke : List.takeWhile isSpace
        (45 :: (natDigits m.natAbs ++ 101 :: intRepr e)) = [] := by
      simp [List.takeWhile_cons, h45]
    have hdre : List.dropWhile isSpace
        (45 :: (natDigits m.natAbs ++ 101 :: intRepr e)) =
        45 :: (natDigits m.natAbs ++ 101 :: intRepr e) := by
      simp [List.dropWhile_cons, h45]
    rw [htke, hdre]
    have hrs : readSign (45 :: (natDigits m.natAbs ++ 101 :: intRepr e)) =
        (-1, natDigits m.natAbs ++ 101 :: intRepr e, 1) := by
      simp [readSign]
    rw [hrs]
    simp only []
    rw [takeWhile_all_stop (natDigits m.natAbs) 101 (intRepr e) hdsm h101,
      dropWhile_all_stop (natDigits m.natAbs) 101 (intRepr e) hdsm h101,
      strtodFrac_cons_ne 101 (intRepr e) (by decide)]
    simp only []
    rw [isEmpty_false_of_ne_nil hnem]
    simp only [Bool.false_and, if_false]
    rw [List.append_nil, digitsToNat_natDigits, strtodExp_floatExp]
    have hv : (-1 : Int) * (m.natAbs : Int) = m := by omega
    rw [hv]
    simp only [List.length_nil, Nat.cast_zero, sub_zero]
    rw [normFloat_canonical m e hcan]
    simp
    omega
  · rw [if_neg h]
    simp only [List.nil_append]
    obtain ⟨d0, ds', hde⟩ : ∃ d0 ds', natDigits m.natAbs = d0 :: ds' := by
      cases hnd : natDigits m.natAbs with
      | nil => exact absurd hnd hnem
      | cons a l => exact ⟨a, l, rfl⟩
    rw [hde] at hdsm
    have hd0 : isDigit d0 = true := hdsm d0 (by simp)
    rw [hde]
    simp only [List.cons_append]
    have htke : List.takeWhile isSpace (d0 :: (ds' ++ 101 :: intRepr e)) = [] := by
      simp [List.takeWhile_cons, isDigit_not_isSpace d0 hd0]
    have hdre : List.dropWhile isSpace (d0 :: (ds' ++ 101 :: intRepr e)) =
        d0 :: (ds' ++ 101 :: intRepr e) := by
      simp [List.dropWhile_cons, isDigit_not_isSpace d0 hd0]
    rw [htke, hdre, readSign_digit d0 (ds' ++ 101 :: intRepr e) hd0]
    simp only []
    obtain ⟨htk, hdr⟩ := takeWhile_cons_stop d0 ds' 101 (intRepr e) hdsm h101
    rw [htk, hdr, strtodFrac_cons_ne 101 (intRepr e) (by decide)]
    simp only []
    rw [isEmpty_false_of_ne_nil (by simp : (d0 :: ds') ≠ [])]
    simp only [Bool.false_and, if_false]
    rw [List.append_nil, ← hde, digitsToNat_natDigits, strtodExp_floatExp]
    have hv : (1 : Int) * (m.natAbs : Int) = m := by omega
    rw [hv]
    simp only [List.length_nil, Nat.cast_zero, sub_zero]
    rw [normFloat_canonical m e hcan]
    simp [hde]
    omega

/-- `tns_parse_float` accepts the model float text and returns the float. -/
theorem tns_parse_float_floatRepr (m e : Int) (hcan : if m = 0 then e = 0 else m % 10 ≠ 0) :
    tns_parse_float (floatRepr m e) = some (VFloat m e) := by
  rw [tns_parse_float_eq, strtod_floatRepr m e hcan]
  simp

/-! ## Parser structure lemmas -/

/-- The body of one `tnsParseF` step, abstracted over the tag dispatch, for
proving facts about a single frame uniformly in the fuel. -/
def tnsParseStep (k : UInt8 → List UInt8 → Except ParseErr Value) (data : List UInt8) :
    Except ParseErr (Value × List UInt8) :=
  let ds := data.takeWhile isDigit
  if ds.isEmpty then .error .malformedLength
  else
    match data.dropWhile isDigit with
    | [] => .error .missingSeparator
    | c :: rest1 =>
      if c = 58 then
        let n := digitsToNat ds
        if rest1.length < n + 1 then .error .truncated
        else
          match rest1.drop n with
          | [] => .error .truncated
          | t :: rest2 =>
            match k t (rest1.take n) with
            | .error e => .error e
            | .ok v => .ok (v, rest2)
      else .error .missingSeparator

theorem tnsParseF_succ (fuel : Nat) (data : List UInt8) :
    tnsParseF (fuel + 1) data = tnsParseStep (parseTagged fuel) data := rfl

/-- A step on a well-formed frame followed by anything reaches the tag
dispatch with exactly the payload, and returns exactly the leftover. -/
theorem tnsParseStep_mkFrame (k : UInt8 → List UInt8 → Except ParseErr Value)
    (p : List UInt8) (t : UInt8) (rest : List UInt8) :
    tnsParseStep k (mkFrame p t ++ rest) =
      match k t p with
      | .error e => .error e
      | .ok v => .ok (v, rest) := by
  have hds := natDigits_all_digits p.length
  have hne := natDigits_ne_nil p.length
  rw [mkFrame, tnsParseStep]
  simp only [List.append_assoc, List.cons_append, List.singleton_append, List.nil_append]
  rw [takeWhile_all_stop (natDigits p.length) 58 (p ++ t :: rest) hds (by decide),
    dropWhile_all_stop (natDigits p.length) 58 (p ++ t :: rest) hds (by decide),
    isEmpty_false_of_ne_nil hne]
  simp only [if_neg (Bool.noConfusion : ¬(false = true))]
  rw [if_pos trivial, digitsToNat_natDigits]
  have hlen : ¬((p ++ t :: rest).length < p.length + 1) := by
    simp
  rw [if_neg hlen]
  have hdrop : (p ++ t :: rest).drop p.length = t :: rest := List.drop_left p (t :: rest)
  have htake : (p ++ t :: rest).take p.length = p := List.take_left p (t :: rest)
  rw [hdrop, htake]

/-! ## Per-tag dispatch equations (definitional) -/

theorem parseTagged_str (fuel : Nat) (p : List UInt8) :
    parseTagged (fuel + 1) 44 p = .ok (VStr p) := rfl

theorem parseTagged_num (fuel : Nat) (p : List UInt8) :
    parseTagged (fuel + 1) 35 p =
      match tns_parse_integer p with
      | some v => .ok v
      | none =>
        match tns_parse_float p with
        | some v => .ok v
        | none => .error .invalidNumber := rfl

theorem parseTagged_true (fuel : Nat) :
    parseTagged (fuel + 1) 33 strTrue = .ok (VBool true) := rfl

theorem parseTagged_false (fuel : Nat) :
    parseTagged (fuel + 1) 33 strFalse = .ok (VBool false) := rfl

theorem parseTagged_null (fuel : Nat) :
    parseTagged (fuel + 1) 126 [] = .ok VNone := rfl

theorem parseTagged_list (fuel : Nat) (p : List UInt8) :
    parseTagged (fuel + 1) 93 p =
      match parseListF fuel p [] with
      | .error e => .error e
      | .ok xs => .ok (VList xs) := rfl

theorem parseTagged_dict (fuel : Nat) (p : List UInt8) :
    parseTagged (fuel + 1) 125 p =
      match parseDictF fuel p [] with
      | .error e => .error e
      | .ok ps => .ok (VDict ps) := rfl

theorem parseListF_cons (fuel : Nat) (d : UInt8) (ds : List UInt8) (lst : List Value) :
    parseListF (fuel + 1) (d :: ds) lst =
      match tnsParseF fuel (d :: ds) with
      | .error e => .error e
      | .ok (v, rest) => parseListF fuel rest (lst ++ [v]) := rfl

theorem parseDictF_cons (fuel : Nat) (b : UInt8) (bs : List UInt8) (d : List (Value × Value)) :
    parseDictF (fuel + 1) (b :: bs) d =
      match tnsParseF fuel (b :: bs) with
      | .error e => .error e
      | .ok (k, rest1) =>
        if rest1.isEmpty then .error .danglingKey
        else
          match tnsParseF fuel rest1 with
          | .error e => .error e
          | .ok (v, rest2) => parseDictF fuel rest2 (tns_add_to_dict d k v) := rfl

/-! ## Frame shape facts -/

theorem mkFrame_length (p : List UInt8) (t : UInt8) :
    (mkFrame p t).length = (natDigits p.length).length + 1 + p.length + 1 := by
  rw [mkFrame]
  simp
  omega

theorem frameV_length (v : Value) :
    (frameV v).length =
      (natDigits (payloadV v).length).length + 1 + (payloadV v).length + 1 := by
  rw [frameV, mkFrame_length]

theorem frameV_length_ge (v : Value) : 3 ≤ (frameV v).length := by
  have h1 : 1 ≤ (natDigits (payloadV v).length).length :=
    List.length_pos.mpr (natDigits_ne_nil _)
  rw [frameV_length]
  omega

theorem frameV_ne_nil (v : Value) : frameV v ≠ [] := by
  intro h
  have := frameV_length_ge v
  rw [h] at this
  simp at this

/-! ## Well-formedness unpacking -/

theorem wfV_int (n : Int) (h : wfV (VInt n) = true) : -(2 ^ 63) ≤ n ∧ n < 2 ^ 63 := by
  simpa [wfV] using h

theorem wfV_float (m e : Int) (h : wfV (VFloat m e) = true) :
    if m = 0 then e = 0 else m % 10 ≠ 0 := by
  by_cases hm : m = 0 <;> simp_all [wfV]

theorem wfL_cons (x : Value) (xs : List Value) (h : wfL (x :: xs) = true) :
    wfV x = true ∧ wfL xs = true := by
  simpa [wfL, Bool.and_eq_true] using h

theorem noDictL_cons (x : Value) (xs : List Value) (h : noDictL (x :: xs) = true) :
    noDictV x = true ∧ noDictL xs = true := by
  simpa [noDictL, Bool.and_eq_true] using h

/-! ## Round trip: parsing a rendered frame -/

/-- Simultaneous fuel induction: a full frame (plus leftover) parses back to
the very value, the tag dispatch accepts each payload, and the list loop
rebuilds the element list, under fuel bounds that the entry point satisfies. -/
theorem parse_frame_fuel : ∀ fuel : Nat,
    (∀ (v : Value) (rest : List UInt8), noDictV v = true → wfV v = true →
      (frameV v ++ rest).length + 1 ≤ fuel →
      tnsParseF fuel (frameV v ++ rest) = .ok (v, rest)) ∧
    (∀ v : Value, noDictV v = true → wfV v = true →
      (payloadV v).length + 3 ≤ fuel →
      parseTagged fuel (tns_get_type v) (payloadV v) = .ok v) ∧
    (∀ (xs lst : List Value), noDictL xs = true → wfL xs = true →
      (frameL xs).length + 2 ≤ fuel →
      parseListF fuel (frameL xs) lst = .ok (lst ++ xs)) := by
  intro fuel
  induction fuel with
  | zero =>
    refine ⟨?_, ?_, ?_⟩ <;> (intros; omega)
  | succ fuel ih =>
    obtain ⟨ihP, ihT, ihQ⟩ := ih
    refine ⟨?_, ?_, ?_⟩
    · intro v rest hnd hwf hlen
      have hdig : 1 ≤ (natDigits (payloadV v).length).length :=
        List.length_pos.mpr (natDigits_ne_nil _)
      have hfl := frameV_length v
      have hrl : (frameV v ++ rest).length = (frameV v).length + rest.length := by simp
      rw [tnsParseF_succ, frameV, tnsParseStep_mkFrame]
      rw [ihT v hnd hwf (by omega)]
    · intro v hnd hwf hlen
      cases v with
      | VNone => exact parseTagged_null fuel
      | VBool b =>
        cases b with
        | true => exact parseTagged_true fuel
        | false => exact parseTagged_false fuel
      | VInt n =>
        obtain ⟨h1, h2⟩ := wfV_int n hwf
        show parseTagged (fuel + 1) 35 (intRepr n) = .ok (VInt n)
        rw [parseTagged_num, tns_parse_integer_intRepr n h1 h2]
      | VFloat m e =>
        have hcan := wfV_float m e hwf
        show parseTagged (fuel + 1) 35 (floatRepr m e) = .ok (VFloat m e)
        rw [parseTagged_num, tns_parse_integer_floatRepr, tns_parse_float_floatRepr m e hcan]
      | VStr s => exact parseTagged_str fuel s
      | VList xs =>
        have hnd' : noDictL xs = true := by simpa [noDictV] using hnd
        have hwf' : wfL xs = true := by simpa [wfV] using hwf
        show parseTagged (fuel + 1) 93 (frameL xs) = .ok (VList xs)
        have hp : (payloadV (VList xs)).length = (frameL xs).length := rfl
        rw [parseTagged_list, ihQ xs [] hnd' hwf' (by rw [hp] at hlen; omega)]
        simp
      | VDict ps => exact absurd hnd (by simp [noDictV])
    · intro xs lst hnd hwf hlen
      cases xs with
      | nil =>
        show parseListF (fuel + 1) [] lst = .ok (lst ++ [])
        simp [parseListF]
      | cons x xs =>
        obtain ⟨hndx, hndxs⟩ := noDictL_cons x xs hnd
        obtain ⟨hwfx, hwfxs⟩ := wfL_cons x xs hwf
        have hfc := frameL_cons x xs
        have hfg := frameV_length_ge x
        have hlc : (frameL (x :: xs)).length = (frameV x).length + (frameL xs).length := by
          rw [hfc]; simp
        obtain ⟨c, cs, hcons⟩ : ∃ c cs, frameV x ++ frameL xs = c :: cs := by
          cases hfv : frameV x with
          | nil => exact absurd hfv (frameV_ne_nil x)
          | cons c cs => exact ⟨c, cs ++ frameL xs, by rw [← List.cons_append, ← hfv]⟩
        rw [hfc, hcons, parseListF_cons, ← hcons,
          ihP x (frameL xs) hndx hwfx (by rw [hlc] at hlen; simp; omega)]
        simp only []
        rw [ihQ xs (lst ++ [x]) hndxs hwfxs (by rw [hlc] at hlen; omega)]
        simp

/-- Parsing the forward frame of a well-formed dict-free value, followed by
any leftover bytes, returns exactly that value and the leftover. -/
theorem tns_parse_frameV (v : Value) (rest : List UInt8)
    (hnd : noDictV v = true) (hwf : wfV v = true) :
    tns_parse (frameV v ++ rest) = .ok (v, rest) := by
  rw [tns_parse]
  exact (parse_frame_fuel ((frameV v ++ rest).length + 1)).1 v rest hnd hwf (by omega)

/-! ## Renderer correctness: backward fragments are reversed frames -/

theorem closeFrame_payload (buf : List UInt8) (t : UInt8) (p : List UInt8) :
    closeFrame (buf ++ [t]) ((buf ++ [t]) ++ p.reverse) = buf ++ (mkFrame p t).reverse := by
  rw [closeFrame, mkFrame]
  have hl : ((buf ++ [t]) ++ p.reverse).length - (buf ++ [t]).length = p.length := by
    simp
    omega
  rw [hl]
  simp

mutual

theorem renderValue_eq : ∀ (v : Value) (buf : List UInt8),
    renderValue v buf = buf ++ (frameV v).reverse
  | VNone, buf => by
    show closeFrame (buf ++ [tns_get_type VNone]) (buf ++ [tns_get_type VNone]) = _
    have h := closeFrame_payload buf (tns_get_type VNone) []
    simpa using h
  | VBool b, buf => closeFrame_payload buf (tns_get_type (VBool b)) (if b then strTrue else strFalse)
  | VInt n, buf => closeFrame_payload buf (tns_get_type (VInt n)) (intRepr n)
  | VFloat m e, buf => closeFrame_payload buf (tns_get_type (VFloat m e)) (floatRepr m e)
  | VStr s, buf => closeFrame_payload buf (tns_get_type (VStr s)) s
  | VList xs, buf => by
    show closeFrame (buf ++ [tns_get_type (VList xs)])
        (renderItemsRev xs (buf ++ [tns_get_type (VList xs)])) = _
    rw [renderItemsRev_eq xs (buf ++ [tns_get_type (VList xs)])]
    exact closeFrame_payload buf (tns_get_type (VList xs)) (frameL xs)
  | VDict ps, buf => by
    show closeFrame (buf ++ [tns_get_type (VDict ps)])
        (renderPairs ps (buf ++ [tns_get_type (VDict ps)])) = _
    rw [renderPairs_eq ps (buf ++ [tns_get_type (VDict ps)])]
    exact closeFrame_payload buf (tns_get_type (VDict ps)) (frameD ps)

theorem renderItemsRev_eq : ∀ (ys : List Value) (buf : List UInt8),
    renderItemsRev ys buf = buf ++ (frameL ys).reverse
  | [], buf => by simp [renderItemsRev, frameL]
  | y :: ys, buf => by
    show renderValue y (renderItemsRev ys buf) = _
    rw [renderItemsRev_eq ys buf, renderValue_eq y, frameL_cons]
    simp

theorem renderPairs_eq : ∀ (ps : List (Value × Value)) (buf : List UInt8),
    renderPairs ps buf = buf ++ (frameD ps).reverse
  | [], buf => by simp [renderPairs, frameD]
  | (k, v) :: ps, buf => by
    show renderPairs ps (renderValue k (renderValue v buf)) = _
    rw [renderPairs_eq ps, renderValue_eq k, renderValue_eq v, frameD_cons]
    simp

end

/-- `dumps` produces exactly the forward wire frame of the value. -/
theorem dumps_eq_frameV (v : Value) : dumps v = frameV v := by
  rw [dumps, renderValue_eq]
  simp

/-! ## Fuel monotonicity (successful parses are stable under more fuel) -/

theorem tnsParseStep_mono (k k' : UInt8 → List UInt8 → Except ParseErr Value)
    (hk : ∀ t p v, k t p = .ok v → k' t p = .ok v)
    (data : List UInt8) (r : Value × List UInt8)
    (h : tnsParseStep k data = .ok r) : tnsParseStep k' data = .ok r := by
  rw [tnsParseStep] at h ⊢
  by_cases h1 : (data.takeWhile isDigit).isEmpty = true
  · rw [if_pos h1] at h
    exact absurd h (by simp)
  · rw [if_neg h1] at h ⊢
    cases hdw : data.dropWhile isDigit with
    | nil =>
      rw [hdw] at h
      exact absurd h (by simp)
    | cons c rest1 =>
      rw [hdw] at h
      dsimp only at h ⊢
      by_cases h2 : c = 58
      · rw [if_pos h2] at h ⊢
        by_cases h3 : rest1.length < digitsToNat (data.takeWhile isDigit) + 1
        · rw [if_pos h3] at h
          exact absurd h (by simp)
        · rw [if_neg h3] at h ⊢
          cases hdp : rest1.drop (digitsToNat (data.takeWhile isDigit)) with
          | nil =>
            rw [hdp] at h
            exact absurd h (by simp)
          | cons t rest2 =>
            rw [hdp] at h
            dsimp only at h ⊢
            cases hk0 : k t (rest1.take (digitsToNat (data.takeWhile isDigit))) with
            | error e =>
              rw [hk0] at h
              exact absurd h (by simp)
            | ok v =>
              rw [hk0] at h
              rw [hk t _ v hk0]
              exact h
      · rw [if_neg h2] at h
        exact absurd h (by simp)

theorem parse_mono_fuel : ∀ fuel : Nat,
    (∀ d r, tnsParseF fuel d = .ok r → tnsParseF (fuel + 1) d = .ok r) ∧
    (∀ t p v, parseTagged fuel t p = .ok v → parseTagged (fuel + 1) t p = .ok v) ∧
    (∀ d acc r, parseListF fuel d acc = .ok r → parseListF (fuel + 1) d acc = .ok r) ∧
    (∀ d acc r, parseDictF fuel d acc = .ok r → parseDictF (fuel + 1) d acc = .ok r) := by
  intro fuel
  induction fuel with
  | zero =>
    refine ⟨?_, ?_, ?_, ?_⟩
    · intro d r h
      exact absurd h (by simp [tnsParseF])
    · intro t p v h
      exact absurd h (by simp [parseTagged])
    · intro d acc r h
      cases d with
      | nil => exact h
      | cons a as => exact absurd h (by simp [parseListF])
    · intro d acc r h
      cases d with
      | nil => exact h
      | cons a as => exact absurd h (by simp [parseDictF])
  | succ fuel ih =>
    obtain ⟨ihP, ihT, ihL, ihD⟩ := ih
    refine ⟨?_, ?_, ?_, ?_⟩
    · intro d r h
      rw [tnsParseF_succ] at h ⊢
      exact tnsParseStep_mono _ _ ihT d r h
    · intro t p v h
      simp only [parseTagged] at h ⊢
      by_cases h44 : t = 44
      · rw [if_pos h44] at h ⊢; exact h
      · rw [if_neg h44] at h ⊢
        by_cases h35 : t = 35
        · rw [if_pos h35] at h ⊢; exact h
        · rw [if_neg h35] at h ⊢
          by_cases h33 : t = 33
          · rw [if_pos h33] at h ⊢; exact h
          · rw [if_neg h33] at h ⊢
            by_cases h126 : t = 126
            · rw [if_pos h126] at h ⊢; exact h
            · rw [if_neg h126] at h ⊢
              by_cases h93 : t = 93
              · rw [if_pos h93] at h ⊢
                cases hl : parseListF fuel p [] with
                | error e =>
                  rw [hl] at h
                  exact absurd h (by simp)
                | ok xs =>
                  rw [hl] at h
                  rw [ihL p [] xs hl]
                  exact h
              · rw [if_neg h93] at h ⊢
                by_cases h125 : t = 125
                · rw [if_pos h125] at h ⊢
                  cases hd : parseDictF fuel p [] with
                  | error e =>
                    rw [hd] at h
                    exact absurd h (by simp)
                  | ok ps =>
                    rw [hd] at h
                    rw [ihD p [] ps hd]
                    exact h
                · rw [if_neg h125] at h
                  exact absurd h (by simp)
    · intro d acc r h
      cases d with
      | nil => exact h
      | cons c cs =>
        rw [parseListF_cons] at h
        rw [parseListF_cons]
        cases hp : tnsParseF fuel (c :: cs) with
        | error e =>
          rw [hp] at h
          exact absurd h (by simp)
        | ok vr =>
          obtain ⟨v, rest⟩ := vr
          rw [hp] at h
          rw [ihP _ _ hp]
          dsimp only at h ⊢
          exact ihL rest (acc ++ [v]) r h
    · intro d acc r h
      cases d with
      | nil => exact h
      | cons c cs =>
        rw [parseDictF_cons] at h
        rw [parseDictF_cons]
        cases hp : tnsParseF fuel (c :: cs) with
        | error e =>
          rw [hp] at h
          exact absurd h (by simp)
        | ok vr =>
          obtain ⟨k, rest1⟩ := vr
          rw [hp] at h
          rw [ihP _ _ hp]
          dsimp only at h ⊢
          by_cases he : rest1.isEmpty = true
          · rw [if_pos he] at h
            exact absurd h (by simp)
          · rw [if_neg he] at h ⊢
            cases hp2 : tnsParseF fuel rest1 with
            | error e =>
              rw [hp2] at h
              exact absurd h (by simp)
            | ok vr2 =>
              obtain ⟨v, rest2⟩ := vr2
              rw [hp2] at h
              rw [ihP _ _ hp2]
              dsimp only at h ⊢
              exact ihD rest2 (tns_add_to_dict acc k v) r h

theorem tnsParseF_mono_le {f1 f2 : Nat} (hle : f1 ≤ f2) (d : List UInt8)
    (r : Value × List UInt8) (h : tnsParseF f1 d = .ok r) : tnsParseF f2 d = .ok r := by
  induction f2, hle using Nat.le_induction with
  | base => exact h
  | succ n hn ih => exact (parse_mono_fuel n).1 d r ih

theorem parseTagged_mono_le {f1 f2 : Nat} (hle : f1 ≤ f2) (t : UInt8) (p : List UInt8)
    (v : Value) (h : parseTagged f1 t p = .ok v) : parseTagged f2 t p = .ok v := by
  induction f2, hle using Nat.le_induction with
  | base => exact h
  | succ n hn ih => exact (parse_mono_fuel n).2.1 t p v ih

/-! ## Stability under appended bytes (stream framing) -/

/-- A successful single-frame parse is unchanged by bytes appended after the
input; they simply show up in the remainder. -/
theorem tnsParseStep_append (k : UInt8 → List UInt8 → Except ParseErr Value)
    (data extra : List UInt8) (v : Value) (rest : List UInt8)
    (h : tnsParseStep k data = .ok (v, rest)) :
    tnsParseStep k (data ++ extra) = .ok (v, rest ++ extra) := by
  rw [tnsParseStep] at h
  by_cases h1 : (data.takeWhile isDigit).isEmpty = true
  · rw [if_pos h1] at h
    exact absurd h (by simp)
  · rw [if_neg h1] at h
    cases hdw : data.dropWhile isDigit with
    | nil =>
      rw [hdw] at h
      exact absurd h (by simp)
    | cons c rest1 =>
      rw [hdw] at h
      dsimp only at h
      by_cases h2 : c = 58
      · rw [if_pos h2] at h
        by_cases h3 : rest1.length < digitsToNat (data.takeWhile isDigit) + 1
        · rw [if_pos h3] at h
          exact absurd h (by simp)
        · rw [if_neg h3] at h
          cases hdp : rest1.drop (digitsToNat (data.takeWhile isDigit)) with
          | nil =>
            rw [hdp] at h
            exact absurd h (by simp)
          | cons t rest2 =>
            rw [hdp] at h
            dsimp only at h
            cases hk0 : k t (rest1.take (digitsToNat (data.takeWhile isDigit))) with
            | error e =>
              rw [hk0] at h
              exact absurd h (by simp)
            | ok v0 =>
              rw [hk0] at h
              dsimp only at h
              obtain ⟨hv0, hr⟩ : v0 = v ∧ rest2 = rest := by simpa using h
              have hds : ∀ x ∈ data.takeWhile isDigit, isDigit x = true :=
                fun x hx => List.mem_takeWhile_imp hx
              have hcd : isDigit c = false := by rw [h2]; decide
              have hdata : data = data.takeWhile isDigit ++ (c :: rest1) := by
                rw [← hdw, List.takeWhile_append_dropWhile]
              have hdae : data ++ extra = data.takeWhile isDigit ++ (c :: (rest1 ++ extra)) := by
                conv_lhs => rw [hdata]
                simp
              have hle : digitsToNat (data.takeWhile isDigit) ≤ rest1.length := by omega
              rw [tnsParseStep, hdae,
                takeWhile_all_stop _ c (rest1 ++ extra) hds hcd,
                dropWhile_all_stop _ c (rest1 ++ extra) hds hcd,
                if_neg h1]
              dsimp only
              rw [if_pos h2,
                if_neg (by simp only [List.length_append]; omega),
                List.drop_append_of_le_length hle, hdp,
                List.take_append_of_le_length hle]
              simp only [List.cons_append]
              rw [hk0]
              rw [hv0, hr]
      · rw [if_neg h2] at h
        exact absurd h (by simp)

/-- `tns_parse` ignores what follows the first complete value: appending bytes
leaves the parsed value unchanged and lands them in the remainder. -/
theorem tns_parse_append (s extra : List UInt8) (v : Value) (rest : List UInt8)
    (h : tns_parse s = .ok (v, rest)) :
    tns_parse (s ++ extra) = .ok (v, rest ++ extra) := by
  rw [tns_parse, tnsParseF_succ] at h
  rw [tns_parse, tnsParseF_succ]
  have hmono : ∀ t p v', parseTagged s.length t p = .ok v' →
      parseTagged (s ++ extra).length t p = .ok v' :=
    fun t p v' hh => parseTagged_mono_le (by simp) t p v' hh
  exact tnsParseStep_append _ _ extra v rest (tnsParseStep_mono _ _ hmono s (v, rest) h)

/-! ## Shape of a successful parse -/

theorem tns_get_type_none : tns_get_type VNone = 126 := rfl

theorem tns_get_type_bool (b : Bool) : tns_get_type (VBool b) = 33 := by cases b <;> rfl

theorem tns_get_type_int (n : Int) : tns_get_type (VInt n) = 35 := rfl

theorem tns_get_type_float (m e : Int) : tns_get_type (VFloat m e) = 35 := rfl

theorem tns_get_type_str (a : List UInt8) : tns_get_type (VStr a) = 44 := rfl

theorem tns_get_type_list (xs : List Value) : tns_get_type (VList xs) = 93 := rfl

theorem tns_get_type_dict (ps : List (Value × Value)) : tns_get_type (VDict ps) = 125 := rfl

/-- A value accepted by the tag dispatch carries exactly the tag it was
dispatched on: the wire tag byte is the value's classification. -/
theorem parseTagged_shape (fuel : Nat) (t : UInt8) (p : List UInt8) (v : Value)
    (h : parseTagged fuel t p = .ok v) : tns_get_type v = t := by
  cases fuel with
  | zero => exact absurd h (by simp [parseTagged])
  | succ fuel =>
    simp only [parseTagged] at h
    by_cases h44 : t = 44
    · rw [if_pos h44] at h
      injection h with h'
      rw [← h', h44]
      rfl
    · rw [if_neg h44] at h
      by_cases h35 : t = 35
      · rw [if_pos h35] at h
        cases hti : tns_parse_integer p with
        | some v0 =>
          rw [hti] at h
          dsimp only at h
          injection h with h'
          rw [tns_parse_integer_eq] at hti
          by_cases hc : (strtoll p).2 = p.length
          · rw [if_pos hc] at hti
            injection hti with h''
            rw [← h', ← h'', h35]
            rfl
          · rw [if_neg hc] at hti
            exact absurd hti (by simp)
        | none =>
          rw [hti] at h
          dsimp only at h
          cases htf : tns_parse_float p with
          | some v0 =>
            rw [htf] at h
            dsimp only at h
            injection h with h'
            rw [tns_parse_float_eq] at htf
            by_cases hc : (strtod p).2 = p.length
            · rw [if_pos hc] at htf
              injection htf with h''
              rw [← h', ← h'', h35]
              rfl
            · rw [if_neg hc] at htf
              exact absurd htf (by simp)
          | none =>
            rw [htf] at h
            exact absurd h (by simp)
      · rw [if_neg h35] at h
        by_cases h33 : t = 33
        · rw [if_pos h33] at h
          by_cases hpt : p = strTrue
          · rw [if_pos hpt] at h
            injection h with h'
            rw [← h', h33]
            rfl
          · rw [if_neg hpt] at h
            by_cases hpf : p = strFalse
            · rw [if_pos hpf] at h
              injection h with h'
              rw [← h', h33]
              rfl
            · rw [if_neg hpf] at h
              exact absurd h (by simp)
        · rw [if_neg h33] at h
          by_cases h126 : t = 126
          · rw [if_pos h126] at h
            by_cases hpe : p.isEmpty = true
            · rw [if_pos hpe] at h
              injection h with h'
              rw [← h', h126]
              rfl
            · rw [if_neg hpe] at h
              exact absurd h (by simp)
          · rw [if_neg h126] at h
            by_cases h93 : t = 93
            · rw [if_pos h93] at h
              cases hl : parseListF fuel p [] with
              | error e =>
                rw [hl] at h
                exact absurd h (by simp)
              | ok xs =>
                rw [hl] at h
                dsimp only at h
                injection h with h'
                rw [← h', h93]
                rfl
            · rw [if_neg h93] at h
              by_cases h125 : t = 125
              · rw [if_pos h125] at h
                cases hd : parseDictF fuel p [] with
                | error e =>
                  rw [hd] at h
                  exact absurd h (by simp)
                | ok ps =>
                  rw [hd] at h
                  dsimp only at h
                  injection h with h'
                  rw [← h', h125]
                  rfl
              · rw [if_neg h125] at h
                exact absurd h (by simp)

/-- A successful step consumed a prefix ending exactly at the tag byte, and
the tag was accepted by the dispatch. -/
theorem tnsParseStep_decomp (k : UInt8 → List UInt8 → Except ParseErr Value)
    (data : List UInt8) (v : Value) (rest : List UInt8)
    (h : tnsParseStep k data = .ok (v, rest)) :
    ∃ pre t p, data = (pre ++ [t]) ++ rest ∧ k t p = .ok v := by
  rw [tnsParseStep] at h
  by_cases h1 : (data.takeWhile isDigit).isEmpty = true
  · rw [if_pos h1] at h
    exact absurd h (by simp)
  · rw [if_neg h1] at h
    cases hdw : data.dropWhile isDigit with
    | nil =>
      rw [hdw] at h
      exact absurd h (by simp)
    | cons c rest1 =>
      rw [hdw] at h
      dsimp only at h
      by_cases h2 : c = 58
      · rw [if_pos h2] at h
        by_cases h3 : rest1.length < digitsToNat (data.takeWhile isDigit) + 1
        · rw [if_pos h3] at h
          exact absurd h (by simp)
        · rw [if_neg h3] at h
          cases hdp : rest1.drop (digitsToNat (data.takeWhile isDigit)) with
          | nil =>
            rw [hdp] at h
            exact absurd h (by simp)
          | cons t rest2 =>
            rw [hdp] at h
            dsimp only at h
            cases hk0 : k t (rest1.take (digitsToNat (data.takeWhile isDigit))) with
            | error e =>
              rw [hk0] at h
              exact absurd h (by simp)
            | ok v0 =>
              rw [hk0] at h
              dsimp only at h
              obtain ⟨hv0, hr⟩ : v0 = v ∧ rest2 = rest := by simpa using h
              refine ⟨data.takeWhile isDigit ++ c ::
                rest1.take (digitsToNat (data.takeWhile isDigit)), t,
                rest1.take (digitsToNat (data.takeWhile isDigit)), ?_, hv0 ▸ hk0⟩
              have hdata : data = data.takeWhile isDigit ++ (c :: rest1) := by
                rw [← hdw, List.takeWhile_append_dropWhile]
              have hr1 : rest1 = rest1.take (digitsToNat (data.takeWhile isDigit)) ++
                  (t :: rest) := by
                rw [← hr, ← hdp, List.take_append_drop]
              conv_lhs => rw [hdata, hr1]
              simp
      · rw [if_neg h2] at h
        exact absurd h (by simp)

/-- `pop` returns exactly the unconsumed suffix: the input splits as the
consumed bytes, whose last byte is the parsed value's tag, followed by the
remainder. -/
theorem pop_decomp (s : List UInt8) (v : Value) (rest : List UInt8)
    (h : pop s = .ok (v, rest)) :
    ∃ pre, s = (pre ++ [tns_get_type v]) ++ rest := by
  rw [pop, tns_parse, tnsParseF_succ] at h
  obtain ⟨pre, t, p, hsplit, hk⟩ := tnsParseStep_decomp _ s v rest h
  rw [parseTagged_shape s.length t p v hk]
  exact ⟨pre, hsplit⟩

/-! ## Remaining helpers for the claims -/

theorem clampI64_big (n : Int) (h : 2 ^ 63 ≤ n) : clampI64 n = 2 ^ 63 - 1 := by
  rw [clampI64, if_neg (by omega), if_pos (by omega)]

theorem tns_parse_mkFrame (p : List UInt8) (t : UInt8) (rest : List UInt8) :
    tns_parse (mkFrame p t ++ rest) =
      match parseTagged (mkFrame p t ++ rest).length t p with
      | .error e => .error e
      | .ok v => .ok (v, rest) := by
  rw [tns_parse, tnsParseF_succ, tnsParseStep_mkFrame]

theorem mkFrame_append_length_succ (p : List UInt8) (t : UInt8) (rest : List UInt8) :
    ∃ l, (mkFrame p t ++ rest).length = l + 1 ∧ p.length + 2 + rest.length ≤ l := by
  have h1 : 1 ≤ (natDigits p.length).length := List.length_pos.mpr (natDigits_ne_nil _)
  have h2 := mkFrame_length p t
  refine ⟨(mkFrame p t ++ rest).length - 1, ?_, ?_⟩ <;> (simp [h2]; omega)

theorem parseDictF_nil (fuel : Nat) (d : List (Value × Value)) :
    parseDictF fuel [] d = .ok d := by
  cases fuel <;> rfl

theorem pop_ne_nil (s : List UInt8) (v : Value) (rest : List UInt8)
    (h : pop s = .ok (v, rest)) : s ≠ [] := by
  intro he
  rw [he] at h
  have hnil : pop ([] : List UInt8) = .error .malformedLength := rfl
  rw [hnil] at h
  exact Except.noConfusion h

/-! ## The claims -/

/-- Claim C1: for every `Value` containing no `Dict` (well-formed per the
section 3 invariants: integers in signed 64-bit range, floats in the host's
normal form), parsing the rendered bytes — `loads` applied to `dumps v` —
succeeds and returns a value structurally equal to `v`. -/
theorem loads_dumps_roundtrip (v : Value) (hnd : noDictV v = true) (hwf : wfV v = true) :
    loads (dumps v) = .ok v := by
  rw [dumps_eq_frameV, loads]
  have h := tns_parse_frameV v [] hnd hwf
  rw [List.append_nil] at h
  rw [h]

theorem loads_dumps_roundtrip_witness :
    noDictV (VList [VInt (-5), VStr [104, 105], VBool true, VNone, VFloat 15 (-1)]) = true ∧
    wfV (VList [VInt (-5), VStr [104, 105], VBool true, VNone, VFloat 15 (-1)]) = true ∧
    loads (dumps (VList [VInt (-5), VStr [104, 105], VBool true, VNone, VFloat 15 (-1)])) =
      .ok (VList [VInt (-5), VStr [104, 105], VBool true, VNone, VFloat 15 (-1)]) :=
  ⟨by decide, by decide, loads_dumps_roundtrip _ (by decide) (by decide)⟩

/-- Claim C2: rendering the single-pair map `{"foo": [1, 2]}` produces exactly
the bytes `17:3:foo,8:1:1#1:2#]}`, and parsing those bytes reproduces the map
whose sole key `"foo"` maps to the list `[Integer 1, Integer 2]`. -/
theorem dict_foo_concrete :
    dumps (VDict [(VStr (toBytes "foo"), VList [VInt 1, VInt 2])]) =
      toBytes "17:3:foo,8:1:1#1:2#]\x7d" ∧
    loads (toBytes "17:3:foo,8:1:1#1:2#]\x7d") =
      .ok (VDict [(VStr (toBytes "foo"), VList [VInt 1, VInt 2])]) := by
  constructor <;> decide

/-- Claim C3: on a `#`-tagged frame the parser first attempts the whole
payload as a base-10 integer (`strtoll` must consume every payload byte),
then as a float literal under the same full-consumption condition, and fails
with `invalidNumber`, producing no value, when both fail. -/
theorem number_payload_dispatch (p rest : List UInt8) :
    tns_parse (mkFrame p 35 ++ rest) =
      (if (strtoll p).2 = p.length then .ok (VInt (strtoll p).1, rest)
       else if (strtod p).2 = p.length then
         .ok (VFloat (strtod p).1.1 (strtod p).1.2, rest)
       else .error .invalidNumber) := by
  rw [tns_parse_mkFrame]
  obtain ⟨l, hl, _⟩ := mkFrame_append_length_succ p 35 rest
  rw [hl, parseTagged_num, tns_parse_integer_eq, tns_parse_float_eq]
  by_cases hc1 : (strtoll p).2 = p.length
  · rw [if_pos hc1, if_pos hc1]
  · rw [if_neg hc1, if_neg hc1]
    by_cases hc2 : (strtod p).2 = p.length
    · rw [if_pos hc2, if_pos hc2]
    · rw [if_neg hc2, if_neg hc2]

/-- Claim C4 counterexample: a `#` payload denoting `2^63` IS accepted by the
parser — it saturates to `2^63 - 1` instead of failing — and the renderer DOES
encode the out-of-range integer `2^63` (as its full decimal text). -/
theorem big_integer_counterexample :
    loads (toBytes "19:9223372036854775808#") = .ok (VInt 9223372036854775807) ∧
    dumps (VInt 9223372036854775808) = toBytes "19:9223372036854775808#" := by
  constructor <;> decide

/-- Claim C4 amended: integers at or above `2^63` are encodable by the
renderer, and parsing the rendered bytes silently saturates the value to
`2^63 - 1` (the `strtoll` clamp, `errno` unchecked). -/
theorem big_integer_clamp (n : Int) (h : 2 ^ 63 ≤ n) :
    loads (dumps (VInt n)) = .ok (VInt (2 ^ 63 - 1)) := by
  rw [dumps_eq_frameV, loads]
  have hfr : frameV (VInt n) = mkFrame (intRepr n) 35 := rfl
  rw [hfr]
  have hm := tns_parse_mkFrame (intRepr n) 35 []
  rw [List.append_nil] at hm
  rw [hm]
  obtain ⟨l, hl, _⟩ := mkFrame_append_length_succ (intRepr n) 35 []
  rw [List.append_nil] at hl
  rw [hl, parseTagged_num, tns_parse_integer_eq, strtoll_intRepr]
  rw [if_pos rfl, clampI64_big n h]

theorem big_integer_clamp_witness :
    (2 : Int) ^ 63 ≤ 2 ^ 63 ∧
    loads (dumps (VInt (2 ^ 63))) = .ok (VInt (2 ^ 63 - 1)) :=
  ⟨le_refl _, big_integer_clamp (2 ^ 63) (le_refl _)⟩

/-- Claim C5 counterexample: `loads` on one well-formed value followed by an
extra byte does NOT fail — it succeeds and discards the trailing byte. -/
theorem loads_trailing_counterexample : loads (toBytes "0:~X") = .ok VNone := by decide

/-- Claim C5 amended: on a well-formed top-level value followed by additional
bytes, `loads` succeeds with that value, discarding the leftover bytes (the
wrapper passes `remain = NULL` and returns the parsed value unconditionally). -/
theorem loads_discards_trailing (s extra : List UInt8) (v : Value)
    (h : pop s = .ok (v, [])) :
    loads (s ++ extra) = .ok v := by
  rw [pop] at h
  have h2 := tns_parse_append s extra v [] h
  rw [List.nil_append] at h2
  rw [loads, h2]

theorem loads_discards_trailing_witness :
    pop (toBytes "0:~") = .ok (VNone, []) ∧ loads (toBytes "0:~" ++ [88]) = .ok VNone :=
  ⟨by decide, loads_discards_trailing _ [88] _ (by decide)⟩

theorem pop_decomp_witness :
    pop (toBytes "0:~X") = .ok (VNone, [88]) ∧
    ∃ pre, toBytes "0:~X" = (pre ++ [tns_get_type VNone]) ++ [88] :=
  ⟨by decide, pop_decomp _ _ _ (by decide)⟩

/-- Claim C8: classification checks booleans before integers — `Py_True` and
`Py_False` satisfy the integer type check (`bool` subclasses `int`) yet
classify as the bool tag `!` (33), so rendering them produces `4:true!` and
`5:false!` rather than an integer encoding. -/
theorem bool_before_int :
    tns_get_type (VBool true) = 33 ∧ tns_get_type (VBool false) = 33 ∧
    pyIntCheck (VBool true) = true ∧ pyIntCheck (VBool false) = true ∧
    dumps (VBool true) = toBytes "4:true!" ∧ dumps (VBool false) = toBytes "5:false!" := by
  refine ⟨rfl, rfl, rfl, rfl, ?_, ?_⟩ <;> decide

/-- Claim C9: a `}` payload holding two key/value pairs with equal keys
parses successfully, and the resulting dict maps the key to the value of the
later pair — `tns_add_to_dict` (`PyDict_SetItem`) overwrites the existing
binding. -/
theorem dict_duplicate_key (kb vb1 vb2 : List UInt8) (k v1 v2 : Value)
    (hk : pop kb = .ok (k, []))
    (h1 : pop vb1 = .ok (v1, []))
    (h2 : pop vb2 = .ok (v2, [])) :
    loads (mkFrame (kb ++ (vb1 ++ (kb ++ vb2))) 125) = .ok (VDict [(k, v2)]) := by
  have hkb := pop_ne_nil kb k [] hk
  have hvb1 := pop_ne_nil vb1 v1 [] h1
  have hvb2 := pop_ne_nil vb2 v2 [] h2
  have hkbl : 1 ≤ kb.length := List.length_pos.mpr hkb
  have hvb1l : 1 ≤ vb1.length := List.length_pos.mpr hvb1
  have hvb2l : 1 ≤ vb2.length := List.length_pos.mpr hvb2
  rw [pop] at hk h1 h2
  have htp : tns_parse (mkFrame (kb ++ (vb1 ++ (kb ++ vb2))) 125) =
      .ok (VDict [(k, v2)], []) := by
    have hm := tns_parse_mkFrame (kb ++ (vb1 ++ (kb ++ vb2))) 125 []
    rw [List.append_nil] at hm
    rw [hm]
    obtain ⟨l, hl, hbound⟩ := mkFrame_append_length_succ (kb ++ (vb1 ++ (kb ++ vb2))) 125 []
    simp only [List.append_nil, List.length_nil, Nat.add_zero] at hl hbound
    rw [hl, parseTagged_dict]
    obtain ⟨l1, hl1⟩ : ∃ l1, l = l1 + 1 := ⟨l - 1, by omega⟩
    obtain ⟨c, kb', hc⟩ : ∃ c kb', kb = c :: kb' := by
      cases kb with
      | nil => exact absurd rfl hkb
      | cons a as => exact ⟨a, as, rfl⟩
    have hPc : kb ++ (vb1 ++ (kb ++ vb2)) = c :: (kb' ++ (vb1 ++ (kb ++ vb2))) := by
      rw [hc]; rfl
    rw [hl1, hPc, parseDictF_cons, ← hPc]
    have hk1 : tnsParseF l1 (kb ++ (vb1 ++ (kb ++ vb2))) = .ok (k, vb1 ++ (kb ++ vb2)) := by
      have ha := tns_parse_append kb (vb1 ++ (kb ++ vb2)) k [] hk
      rw [List.nil_append] at ha
      rw [tns_parse] at ha
      refine tnsParseF_mono_le ?_ _ _ ha
      omega
    rw [hk1]
    dsimp only
    have hR1ne : vb1 ++ (kb ++ vb2) ≠ [] :=
      fun hh => hvb1 (List.append_eq_nil.mp hh).1
    rw [isEmpty_false_of_ne_nil hR1ne, if_neg (by decide)]
    have hv1p : tnsParseF l1 (vb1 ++ (kb ++ vb2)) = .ok (v1, kb ++ vb2) := by
      have ha := tns_parse_append vb1 (kb ++ vb2) v1 [] h1
      rw [List.nil_append] at ha
      rw [tns_parse] at ha
      refine tnsParseF_mono_le ?_ _ _ ha
      simp only [List.length_append] at hbound ⊢
      omega
    rw [hv1p]
    dsimp only
    have hadd1 : tns_add_to_dict [] k v1 = [(k, v1)] := rfl
    rw [hadd1]
    obtain ⟨l2, hl2⟩ : ∃ l2, l1 = l2 + 1 :=
      ⟨l1 - 1, by simp only [List.length_append] at hbound; omega⟩
    have hPc2 : kb ++ vb2 = c :: (kb' ++ vb2) := by rw [hc]; rfl
    rw [hl2, hPc2, parseDictF_cons, ← hPc2]
    have hk2 : tnsParseF l2 (kb ++ vb2) = .ok (k, vb2) := by
      have ha := tns_parse_append kb vb2 k [] hk
      rw [List.nil_append] at ha
      rw [tns_parse] at ha
      refine tnsParseF_mono_le ?_ _ _ ha
      simp only [List.length_append] at hbound ⊢
      omega
    rw [hk2]
    dsimp only
    rw [isEmpty_false_of_ne_nil hvb2, if_neg (by decide)]
    have hv2p : tnsParseF l2 vb2 = .ok (v2, []) := by
      rw [tns_parse] at h2
      refine tnsParseF_mono_le ?_ _ _ h2
      simp only [List.length_append] at hbound
      omega
    rw [hv2p]
    dsimp only
    have hadd2 : tns_add_to_dict [(k, v1)] k v2 = [(k, v2)] := by
      simp [tns_add_to_dict]
    rw [hadd2, parseDictF_nil]
  rw [loads, htp]

theorem dict_duplicate_key_witness :
    pop (toBytes "3:foo,") = .ok (VStr (toBytes "foo"), []) ∧
    pop (toBytes "1:1#") = .ok (VInt 1, []) ∧
    pop (toBytes "1:2#") = .ok (VInt 2, []) ∧
    loads (mkFrame (toBytes "3:foo," ++ (toBytes "1:1#" ++ (toBytes "3:foo," ++ toBytes "1:2#")))
        125) = .ok (VDict [(VStr (toBytes "foo"), VInt 2)]) :=
  ⟨by decide, by decide, by decide,
    dict_duplicate_key (toBytes "3:foo,") (toBytes "1:1#") (toBytes "1:2#")
      (VStr (toBytes "foo")) (VInt 1) (VInt 2) (by decide) (by decide) (by decide)⟩

/-- Claim C10: `tns_parse_integer` is more lenient than the canonical decimal
text the renderer emits — optional leading C whitespace, an optional `+` or
`-` sign and decimal digits (the forms `strtoll` accepts in full) are accepted
and yield the corresponding integer (stated within the signed 64-bit range,
where the corresponding integer is representable; outside it the value
saturates, see the C4 theorems). -/
theorem lenient_integer_payload (ws sg ds : List UInt8)
    (hws : ∀ c ∈ ws, isSpace c = true)
    (hsg : sg = [] ∨ sg = [43] ∨ sg = [45])
    (hds : ∀ c ∈ ds, isDigit c = true) (hne : ds ≠ [])
    (hlow : -(2 ^ 63) ≤ (if sg = [45] then (-1 : Int) else 1) * (digitsToNat ds : Int))
    (hhigh : (if sg = [45] then (-1 : Int) else 1) * (digitsToNat ds : Int) < 2 ^ 63) :
    tns_parse_integer (ws ++ (sg ++ ds)) =
      some (VInt ((if sg = [45] then (-1 : Int) else 1) * (digitsToNat ds : Int))) := by
  rw [tns_parse_integer_eq, strtoll_eq ws sg ds hws hsg hds hne]
  rw [if_pos (by simp only [List.length_append]; omega)]
  rw [clampI64_id _ hlow hhigh]

theorem lenient_integer_payload_witness :
    tns_parse_integer ([32] ++ ([43] ++ [52, 50])) =
      some (VInt ((if ([43] : List UInt8) = [45] then (-1 : Int) else 1) *
        (digitsToNat [52, 50] : Int))) :=
  lenient_integer_payload [32] [43] [52, 50] (by decide) (by simp) (by decide) (by simp)
    (by decide) (by decide)

end TNet
